import Mathlib

/-!
Shallow embedding of the ERV coverage pipeline of this repository:
`src/filter_maf.py` (interval-indexed block filtering) and
`src/check_erv_presence.py` (coordinate mapping, per-species coverage
aggregation, summary table).  Python dictionaries are modelled as
association lists, interval trees as lists of intervals with the
half-open overlap query, and floating-point `round(x, 3)` in exact
rational arithmetic.
-/

namespace Erv

/-! ### src/filter_maf.py -/

/-- An interval held in a per-chromosome `bx` interval tree
(`intervals_by_chr[chrom]`); bounds are integers because the margin can
push the lower bound negative. -/
structure BxInterval where
  lo : Int
  hi : Int
deriving DecidableEq

/-- `MARGINS = 2000` (filter_maf.py line 8). -/
def MARGINS : Int := 2000

/-- Loading one BED line into the tree:
`intervals_by_chr[chrom].add(int(start) - MARGINS, int(end) + MARGINS)`
(filter_maf.py line 26). -/
def addBedInterval (tree : List BxInterval) (start stop : Int) : List BxInterval :=
  tree ++ [⟨start - MARGINS, stop + MARGINS⟩]

/-- `tree.find(qlo, qhi)`: every stored interval `iv` with
`qlo < iv.hi` and `iv.lo < qhi` (half-open overlap). -/
def treeFind (tree : List BxInterval) (qlo qhi : Int) : List BxInterval :=
  tree.filter (fun iv => decide (qlo < iv.hi ∧ iv.lo < qhi))

/-- One `s` line (component) of a MAF block: reference start and size of the
row, plus the remaining row content, kept verbatim (the filter never reads
it). -/
structure Component where
  start : Nat
  size : Nat
  text : String
deriving DecidableEq

/-- A MAF block as yielded by `bx.align.maf.Reader`. -/
structure MafBlock where
  components : List Component
deriving DecidableEq

/-- The keep test of `process_chr` (filter_maf.py lines 42-45): the span
`[comp.start, comp.start + comp.size)` of the first component is queried
against the tree (`if tree.find(block_start, block_end)`).  A block with no
components would raise `IndexError` in the source; such blocks cannot occur
in MAF input and the `[]` branch is unreachable under the theorems below. -/
def keepBlock (tree : List BxInterval) (m : MafBlock) : Bool :=
  match m.components with
  | [] => false
  | comp :: _ =>
    !(treeFind tree (comp.start : Int) ((comp.start : Int) + (comp.size : Int))).isEmpty

/-- The reader/writer loop of `process_chr` (filter_maf.py lines 41-46):
stream the blocks in file order and write the kept ones unchanged. -/
def process_chr (tree : List BxInterval) (blocks : List MafBlock) : List MafBlock :=
  blocks.foldl (fun out m => if keepBlock tree m then out ++ [m] else out) []

/-! ### src/check_erv_presence.py -/

/-- One sequence record of an alignment block (`Bio.AlignIO` record): the
dotted identifier, the `start` and `size` annotations, and the aligned
sequence. -/
structure SeqRecord where
  id : String
  start : Nat
  size : Nat
  seq : List Char
deriving DecidableEq

/-- An alignment block is the list of its sequence records. -/
abbrev Alignment := List SeqRecord

/-- One entry of `ltr_regions[chrom]` (an `intervaltree` interval
`⟨begin, end, data⟩` added at line 45). -/
structure Region where
  lo : Nat
  hi : Nat
  data : String
deriving DecidableEq

/-- `ltr_regions[chrom].overlap(qlo, qhi)` (line 73): every interval `r`
with `qlo < r.hi` and `r.lo < qhi` (half-open overlap). -/
def overlapQuery (regions : List Region) (qlo qhi : Nat) : List Region :=
  regions.filter (fun r => decide (qlo < r.hi ∧ r.lo < qhi))

/-- `rec.id.split(".")[0]` (line 98): the prefix of the identifier before
its first dot (the whole identifier when it has no dot). -/
def speciesOf (id : String) : String :=
  String.mk (id.data.takeWhile (fun c => c ≠ '.'))

/-- `id.startswith(pre)`: the first `pre.length` characters of `id` are
exactly `pre`. -/
def idStartsWith (id pre : String) : Bool :=
  decide (id.data.take pre.data.length = pre.data)

/-- Locating the anchor row (line 65):
`next((r for r in alignment if r.id.startswith("hg38.")), None)`. -/
def findHuman (aln : Alignment) : Option SeqRecord :=
  aln.find? (fun r => idStartsWith r.id "hg38.")

/-- The coordinate map of lines 79-86: walk the anchor string with a running
genome position starting at `gpos`; a non-gap column maps to the current
position, which is then incremented; a gap column maps to `none`. -/
def aln_to_genome : Nat → List Char → List (Option Nat)
  | _, [] => []
  | gpos, c :: rest =>
    if c ≠ '-' then some gpos :: aln_to_genome (gpos + 1) rest
    else none :: aln_to_genome gpos rest

/-- The final value of the running counter `gpos` after the walk of
lines 80-86. -/
def finalGpos : Nat → List Char → Nat
  | gpos, [] => gpos
  | gpos, c :: rest => if c ≠ '-' then finalGpos (gpos + 1) rest else finalGpos gpos rest

/-- `enumerate`-style index selection, carrying the current column index:
keep index `i` when the mapped position `g` satisfies `lo ≤ g < hi`. -/
def ltr_indices_from (i lo hi : Nat) : List (Option Nat) → List Nat
  | [] => []
  | some g :: rest =>
    if lo ≤ g ∧ g < hi then i :: ltr_indices_from (i + 1) lo hi rest
    else ltr_indices_from (i + 1) lo hi rest
  | none :: rest => ltr_indices_from (i + 1) lo hi rest

/-- Lines 89-92: `[i for i, g in enumerate(aln_to_genome) if g is not None
and ov.begin <= g < ov.end]`. -/
def ltr_indices (m : List (Option Nat)) (lo hi : Nat) : List Nat :=
  ltr_indices_from 0 lo hi m

/-- Lines 101-102: `subseq = "".join(rec.seq[i] for i in ltr_indices)` and
`aligned_bases = sum(1 for b in subseq if b != "-")`.  Out-of-range indices
(impossible when all rows have the anchor row's length) default to a gap. -/
def alignedCount (seq : List Char) (idxs : List Nat) : Nat :=
  ((idxs.map (fun i => seq.getD i '-')).filter (fun b => b ≠ '-')).length

/-- The aggregation key `(chrom, ov.begin, ov.end, ltr_name, species)`. -/
abbrev AggKey := String × Nat × Nat × String × String

/-- The region-length key `(chrom, ov.begin, ov.end, ltr_name)`. -/
abbrev LenKey := String × Nat × Nat × String

/-- Lookup in an association list modelling a Python dict. -/
def lookupA {α : Type} [DecidableEq α] : List (α × Nat) → α → Option Nat
  | [], _ => none
  | (k, v) :: rest, k' => if k' = k then some v else lookupA rest k'

/-- The value a `defaultdict(int)` yields for a key: stored value or 0. -/
def valA {α : Type} [DecidableEq α] (m : List (α × Nat)) (k : α) : Nat :=
  (lookupA m k).getD 0

/-- `m[k] += v` on a `defaultdict(int)`: an absent key is materialized
with value 0 before the addition, so the entry always exists afterwards. -/
def updAssoc {α : Type} [DecidableEq α] : List (α × Nat) → α → Nat → List (α × Nat)
  | [], k, v => [(k, v)]
  | (k0, v0) :: rest, k, v =>
    if k0 = k then (k0, v0 + v) :: rest else (k0, v0) :: updAssoc rest k v

/-- `m[k] = v` on a plain dict: overwrite or append. -/
def setAssoc {α : Type} [DecidableEq α] : List (α × Nat) → α → Nat → List (α × Nat)
  | [], k, v => [(k, v)]
  | (k0, v0) :: rest, k, v =>
    if k0 = k then (k0, v) :: rest else (k0, v0) :: setAssoc rest k v

/-- The two mutable dicts of the scan (lines 52-53):
`agg_results = defaultdict(int)` and `ltr_lengths = {}`. -/
structure AggState where
  agg : List (AggKey × Nat)
  lens : List (LenKey × Nat)
deriving DecidableEq

/-- The inner species loop (lines 97-104): for every record whose species is
not `hg38`, add its non-gap count at the selected columns to the
accumulator entry for `(chrom, ov.begin, ov.end, ltr_name, species)`. -/
def accumSpecies (chrom : String) (ov : Region) (idxs : List Nat) (aln : Alignment)
    (agg : List (AggKey × Nat)) : List (AggKey × Nat) :=
  aln.foldl
    (fun agg rec =>
      let species := speciesOf rec.id
      if species = "hg38" then agg
      else updAssoc agg (chrom, ov.lo, ov.hi, ov.data, species) (alignedCount rec.seq idxs))
    agg

/-- The body of the per-overlapping-region loop (lines 73-104): record the
region length, build the coordinate map and the selected columns, skip the
region when no column is selected (`if not ltr_indices: continue`), otherwise
accumulate every non-anchor species. -/
def processRegion (chrom : String) (h : SeqRecord) (aln : Alignment)
    (st : AggState) (ov : Region) : AggState :=
  let lens := setAssoc st.lens (chrom, ov.lo, ov.hi, ov.data) (ov.hi - ov.lo)
  let m := aln_to_genome h.start h.seq
  let idxs := ltr_indices m ov.lo ov.hi
  if idxs = [] then { st with lens := lens }
  else { agg := accumSpecies chrom ov idxs aln st.agg, lens := lens }

/-- Processing one alignment block (lines 63-104): find the anchor row
(skip the block when absent), then handle every region overlapping the
anchor span `[start, start + size)`. -/
def processBlock (chrom : String) (regions : List Region) (st : AggState)
    (aln : Alignment) : AggState :=
  match findHuman aln with
  | none => st
  | some h =>
    (overlapQuery regions h.start (h.start + h.size)).foldl
      (processRegion chrom h aln) st

/-- Processing one chromosome's filtered MAF file: fold over its blocks in
file order. -/
def processChrom (chrom : String) (regions : List Region) (st : AggState)
    (alns : List Alignment) : AggState :=
  alns.foldl (processBlock chrom regions) st

/-- One chromosome's share of the scan input: the chromosome name, its
region tree `ltr_regions[chrom]`, and the blocks of its MAF file. -/
structure ChromInput where
  chrom : String
  regions : List Region
  blocks : List Alignment
deriving DecidableEq

/-- The whole Step-2 scan (lines 55-104): iterate the chromosomes,
processing each chromosome's blocks against its own region tree. -/
def runScan (inputs : List ChromInput) : AggState :=
  inputs.foldl (fun st ci => processChrom ci.chrom ci.regions st ci.blocks) ⟨[], []⟩

/-- `round(x, 3)` modelled in exact rational arithmetic as rounding to the
nearest multiple of `1/1000` (ties upward; no value in this development
falls on a tie). -/
def round3 (q : ℚ) : ℚ := (Rat.floor (q * 1000 + 1 / 2) : ℚ) / 1000

/-- One output row (lines 115-124). -/
structure CoverageRecord where
  chrom : String
  rstart : Nat
  rend : Nat
  ltr : String
  species : String
  aligned_bases : Nat
  ltr_len : Nat
  coverage : ℚ
deriving DecidableEq

/-- Step 3 (lines 110-124): one record per accumulator entry, with the
region length from the cache (0 when absent) and
`coverage = aligned_bases / ltr_len if ltr_len > 0 else 0`, rounded to three
decimal places. -/
def buildRecords (st : AggState) : List CoverageRecord :=
  st.agg.map (fun p =>
    match p with
    | ((chrom, rstart, rend, ltr, species), aligned_bases) =>
      let len := (lookupA st.lens (chrom, rstart, rend, ltr)).getD 0
      let coverage : ℚ := if 0 < len then (aligned_bases : ℚ) / (len : ℚ) else 0
      ⟨chrom, rstart, rend, ltr, species, aligned_bases, len, round3 coverage⟩)

/-! ### Specification-side notions used by the theorems -/

/-- Number of non-gap characters of a row. -/
def cntNonGap (s : List Char) : Nat := (s.filter (fun c => c ≠ '-')).length

/-- The total contribution one block adds for species `s` at the selected
columns: the sum of non-gap counts over the rows of that species. -/
def blockContribFor (aln : Alignment) (idxs : List Nat) (s : String) : Nat :=
  ((aln.filter (fun r => decide (speciesOf r.id = s))).map
    (fun r => alignedCount r.seq idxs)).sum

/-- The anchor reference span `[start, start + size)` of a block, empty when
the block has no anchor row. -/
def blockSpanF (aln : Alignment) : Finset Nat :=
  match findHuman aln with
  | none => ∅
  | some h => Finset.Ico h.start (h.start + h.size)

/-- Whether processing block `aln` of chromosome `chrom` against `regions`
reaches the accumulator entry `(c, b, e, n, s)`: the block has an anchor
row, the region `⟨b, e, n⟩` overlaps the anchor span with at least one
selected column, and a row of species `s ≠ hg38` is present. -/
def touchesKey (chrom : String) (regions : List Region) (aln : Alignment)
    (c : String) (b e : Nat) (n s : String) : Bool :=
  match findHuman aln with
  | none => false
  | some h =>
    decide (c = chrom) && decide (s ≠ "hg38") &&
    (overlapQuery regions h.start (h.start + h.size)).any
      (fun ov =>
        decide (ov.lo = b) && decide (ov.hi = e) && decide (ov.data = n) &&
        decide (ltr_indices (aln_to_genome h.start h.seq) ov.lo ov.hi ≠ [])) &&
    aln.any (fun r => decide (speciesOf r.id = s))

/-- Well-formed block in the sense of the data model: exactly one anchor
row, at most one row per species, and every row's non-gap count equal to
its declared size. -/
def wellFormedBlock (aln : Alignment) : Prop :=
  (aln.filter (fun r => idStartsWith r.id "hg38.")).length = 1 ∧
  (aln.map (fun r => speciesOf r.id)).Nodup ∧
  ∀ r ∈ aln, cntNonGap r.seq = r.size

/-- Keys of an association list are pairwise distinct (true of every Python
dict). -/
def keysNodup {α : Type} [DecidableEq α] (m : List (α × Nat)) : Prop :=
  (m.map Prod.fst).Nodup

instance : DecidablePred (wellFormedBlock) := fun aln => by
  unfold wellFormedBlock; infer_instance

/-- The predicate of the selection at lines 89-92, on one mapped entry. -/
def selPred (lo hi : Nat) (g : Option Nat) : Bool :=
  match g with
  | some v => decide (lo ≤ v ∧ v < hi)
  | none => false

/-- Structural invariant of the scan state: both dicts have distinct keys,
every cached region length is `end - start` of its key, and every
accumulator key's region is present in the length cache. -/
def StInv (st : AggState) : Prop :=
  keysNodup st.agg ∧ keysNodup st.lens ∧
  (∀ c : String, ∀ b e : Nat, ∀ n : String, ∀ v : Nat,
    lookupA st.lens (c, b, e, n) = some v → v = e - b) ∧
  (∀ c : String, ∀ b e : Nat, ∀ n s : String,
    (lookupA st.agg (c, b, e, n, s)).isSome → (lookupA st.lens (c, b, e, n)).isSome)

/-! ### Association-list lemmas -/

theorem lookupA_updAssoc_self {α : Type} [DecidableEq α] (m : List (α × Nat)) (k : α) (v : Nat) :
    lookupA (updAssoc m k v) k = some (valA m k + v) := by
  induction m with
  | nil => simp [updAssoc, lookupA, valA]
  | cons p rest ih =>
    obtain ⟨k0, v0⟩ := p
    by_cases h : k0 = k
    · subst h
      simp [updAssoc, lookupA, valA]
    · simp [updAssoc, lookupA, valA, h, Ne.symm h] at ih ⊢
      exact ih

theorem lookupA_updAssoc_ne {α : Type} [DecidableEq α] (m : List (α × Nat)) (k k' : α)
    (v : Nat) (hne : k' ≠ k) : lookupA (updAssoc m k v) k' = lookupA m k' := by
  induction m with
  | nil => simp [updAssoc, lookupA, hne]
  | cons p rest ih =>
    obtain ⟨k0, v0⟩ := p
    by_cases h : k0 = k
    · subst h
      simp [updAssoc, lookupA, hne]
    · by_cases h' : k' = k0 <;> simp [updAssoc, lookupA, h, h', ih]

theorem lookupA_setAssoc_self {α : Type} [DecidableEq α] (m : List (α × Nat)) (k : α) (v : Nat) :
    lookupA (setAssoc m k v) k = some v := by
  induction m with
  | nil => simp [setAssoc, lookupA]
  | cons p rest ih =>
    obtain ⟨k0, v0⟩ := p
    by_cases h : k0 = k
    · subst h
      simp [setAssoc, lookupA]
    · simp [setAssoc, lookupA, h, Ne.symm h, ih]

theorem lookupA_setAssoc_ne {α : Type} [DecidableEq α] (m : List (α × Nat)) (k k' : α)
    (v : Nat) (hne : k' ≠ k) : lookupA (setAssoc m k v) k' = lookupA m k' := by
  induction m with
  | nil => simp [setAssoc, lookupA, hne]
  | cons p rest ih =>
    obtain ⟨k0, v0⟩ := p
    by_cases h : k0 = k
    · subst h
      simp [setAssoc, lookupA, hne]
    · by_cases h' : k' = k0 <;> simp [setAssoc, lookupA, h, h', ih]

theorem lookupA_isSome_of_mem {α : Type} [DecidableEq α] {m : List (α × Nat)} {k : α}
    {v : Nat} (h : (k, v) ∈ m) : (lookupA m k).isSome := by
  induction m with
  | nil => simp at h
  | cons p rest ih =>
    obtain ⟨k0, v0⟩ := p
    rcases List.mem_cons.1 h with h1 | h1
    · cases h1
      simp [lookupA]
    · by_cases hk : k = k0 <;> simp [lookupA, hk, ih h1]

theorem lookupA_eq_of_keysNodup_mem {α : Type} [DecidableEq α] {m : List (α × Nat)}
    {k : α} {v : Nat} (hnd : keysNodup m) (h : (k, v) ∈ m) : lookupA m k = some v := by
  induction m with
  | nil => simp at h
  | cons p rest ih =>
    obtain ⟨k0, v0⟩ := p
    have hnd' : keysNodup rest := (List.nodup_cons.1 hnd).2
    rcases List.mem_cons.1 h with h1 | h1
    · cases h1
      simp [lookupA]
    · have hk : k ≠ k0 := by
        rintro rfl
        exact (List.nodup_cons.1 hnd).1 (List.mem_map.2 ⟨(k, v), h1, rfl⟩)
      simp [lookupA, hk, ih hnd' h1]

theorem mem_of_lookupA_some {α : Type} [DecidableEq α] {m : List (α × Nat)} {k : α}
    {v : Nat} (h : lookupA m k = some v) : (k, v) ∈ m := by
  induction m with
  | nil => simp [lookupA] at h
  | cons p rest ih =>
    obtain ⟨k0, v0⟩ := p
    by_cases hk : k = k0
    · subst hk
      simp [lookupA] at h
      simp [h]
    · simp [lookupA, hk] at h
      exact List.mem_cons_of_mem _ (ih h)

theorem keysNodup_updAssoc {α : Type} [DecidableEq α] (m : List (α × Nat)) (k : α) (v : Nat)
    (hnd : keysNodup m) : keysNodup (updAssoc m k v) := by
  induction m with
  | nil => simp [updAssoc, keysNodup]
  | cons p rest ih =>
    obtain ⟨k0, v0⟩ := p
    obtain ⟨hnotin, hrest⟩ := List.nodup_cons.1 hnd
    by_cases h : k0 = k
    · subst h
      simpa [updAssoc, keysNodup] using hnd
    · have hkeys : (updAssoc rest k v).map Prod.fst = rest.map Prod.fst ++
          (if (lookupA rest k).isSome then [] else [k]) := by
        clear ih hnotin hrest hnd
        induction rest with
        | nil => simp [updAssoc, lookupA]
        | cons q tail ih2 =>
          obtain ⟨k1, v1⟩ := q
          by_cases h1 : k1 = k
          · subst h1
            simp [updAssoc, lookupA]
          · simp [updAssoc, lookupA, h1, Ne.symm h1, ih2]
      by_cases hs : (lookupA rest k).isSome
      · simp only [updAssoc, h, if_false, keysNodup, List.map_cons, List.nodup_cons]
        refine ⟨?_, ih hrest⟩
        rw [hkeys]
        simp [hs, hnotin]
      · simp only [updAssoc, h, if_false, keysNodup, List.map_cons, List.nodup_cons]
        refine ⟨?_, ih hrest⟩
        rw [hkeys, if_neg hs]
        simp only [List.mem_append, List.mem_singleton]
        rintro (hc | rfl)
        · exact hnotin hc
        · exact h rfl

theorem keysNodup_setAssoc {α : Type} [DecidableEq α] (m : List (α × Nat)) (k : α) (v : Nat)
    (hnd : keysNodup m) : keysNodup (setAssoc m k v) := by
  induction m with
  | nil => simp [setAssoc, keysNodup]
  | cons p rest ih =>
    obtain ⟨k0, v0⟩ := p
    obtain ⟨hnotin, hrest⟩ := List.nodup_cons.1 hnd
    by_cases h : k0 = k
    · subst h
      simpa [setAssoc, keysNodup] using hnd
    · have hkeys : (setAssoc rest k v).map Prod.fst = rest.map Prod.fst ++
          (if (lookupA rest k).isSome then [] else [k]) := by
        clear ih hnotin hrest hnd
        induction rest with
        | nil => simp [setAssoc, lookupA]
        | cons q tail ih2 =>
          obtain ⟨k1, v1⟩ := q
          by_cases h1 : k1 = k
          · subst h1
            simp [setAssoc, lookupA]
          · simp [setAssoc, lookupA, h1, Ne.symm h1, ih2]
      simp only [setAssoc, h, if_false, keysNodup, List.map_cons, List.nodup_cons]
      refine ⟨?_, ih hrest⟩
      rw [hkeys]
      by_cases hs : (lookupA rest k).isSome
      · simp [hs, hnotin]
      · rw [if_neg hs]
        simp only [List.mem_append, List.mem_singleton]
        rintro (hc | rfl)
        · exact hnotin hc
        · exact h rfl

theorem lookupA_isSome_updAssoc {α : Type} [DecidableEq α] {m : List (α × Nat)}
    {k k' : α} {v : Nat} (h : (lookupA (updAssoc m k v) k').isSome) :
    (lookupA m k').isSome ∨ k' = k := by
  by_cases hk : k' = k
  · exact Or.inr hk
  · rw [lookupA_updAssoc_ne m k k' v hk] at h
    exact Or.inl h

/-! ### Coordinate-map lemmas -/

theorem aln_to_genome_length (start : Nat) (s : List Char) :
    (aln_to_genome start s).length = s.length := by
  induction s generalizing start with
  | nil => simp [aln_to_genome]
  | cons c rest ih =>
    by_cases h : c = '-' <;> simp [aln_to_genome, h, ih]

/-- Full characterization of the coordinate map: column `i` holds `none`
when the anchor character is a gap, and `start` plus the number of earlier
non-gap columns otherwise. -/
theorem aln_to_genome_getElem (s : List Char) (start i : Nat) :
    (aln_to_genome start s)[i]? =
      (s[i]?).map (fun c =>
        if c ≠ '-' then some (start + cntNonGap (s.take i)) else none) := by
  induction s generalizing start i with
  | nil => simp [aln_to_genome]
  | cons c rest ih =>
    cases i with
    | zero =>
      by_cases h : c = '-' <;> simp [aln_to_genome, h, cntNonGap]
    | succ j =>
      by_cases h : c = '-'
      · subst h
        have hcnt : cntNonGap ('-' :: rest.take j) = cntNonGap (rest.take j) := by
          simp [cntNonGap]
        simp [aln_to_genome, List.take_succ_cons, hcnt, ih start j]
      · have hcnt : cntNonGap (c :: rest.take j) = 1 + cntNonGap (rest.take j) := by
          simp [cntNonGap, h, Nat.add_comm]
        simp only [aln_to_genome, if_pos h, List.getElem?_cons_succ,
          List.take_succ_cons, hcnt, ← Nat.add_assoc]
        exact ih (start + 1) j

theorem finalGpos_eq (start : Nat) (s : List Char) :
    finalGpos start s = start + cntNonGap s := by
  induction s generalizing start with
  | nil => simp [finalGpos, cntNonGap]
  | cons c rest ih =>
    by_cases h : c = '-'
    · simp [finalGpos, h, cntNonGap, ih]
    · simp only [finalGpos, if_pos h, ih, cntNonGap, List.filter_cons]
      simp [h, Nat.add_assoc, Nat.add_comm 1]

/-- Non-gap counts over prefixes grow by one at a non-gap column. -/
theorem cntNonGap_take_succ {s : List Char} {i : Nat} {c : Char}
    (hi : s[i]? = some c) (hc : c ≠ '-') :
    cntNonGap (s.take (i + 1)) = cntNonGap (s.take i) + 1 := by
  rw [cntNonGap, cntNonGap, List.take_succ, hi]
  simp [hc]

/-- Non-gap counts over prefixes are monotone. -/
theorem cntNonGap_take_mono (s : List Char) {i j : Nat} (h : i ≤ j) :
    cntNonGap (s.take i) ≤ cntNonGap (s.take j) := by
  have : s.take j = s.take i ++ (s.drop i).take (j - i) := by
    rw [← List.take_add]
    congr 1
    omega
  rw [cntNonGap, cntNonGap, this, List.filter_append, List.length_append]
  omega

/-! ### Selected-column lemmas -/

theorem ltr_indices_from_length (lo hi : Nat) (m : List (Option Nat)) :
    ∀ i, (ltr_indices_from i lo hi m).length = m.countP (selPred lo hi) := by
  induction m with
  | nil => intro i; simp [ltr_indices_from]
  | cons g rest ih =>
    intro i
    cases g with
    | none => simp [ltr_indices_from, List.countP_cons, selPred, ih]
    | some v =>
      by_cases h : lo ≤ v ∧ v < hi <;>
        simp [ltr_indices_from, List.countP_cons, selPred, h, ih]

theorem countP_sel_eq (s : List Char) (start lo hi : Nat) :
    (aln_to_genome start s).countP (selPred lo hi) =
      min hi (start + cntNonGap s) - max lo start := by
  induction s generalizing start with
  | nil =>
    simp only [aln_to_genome, List.countP_nil, cntNonGap, List.filter_nil,
      List.length_nil, Nat.add_zero]
    omega
  | cons c rest ih =>
    by_cases h : c = '-'
    · subst h
      have hc : cntNonGap ('-' :: rest) = cntNonGap rest := by simp [cntNonGap]
      rw [hc]
      simp [aln_to_genome, List.countP_cons, selPred, ih]
    · have hc : cntNonGap (c :: rest) = 1 + cntNonGap rest := by
        simp [cntNonGap, h, Nat.add_comm]
      rw [aln_to_genome, if_pos h, List.countP_cons, ih (start + 1), hc]
      simp only [selPred, decide_eq_true_eq]
      by_cases hb : lo ≤ start ∧ start < hi <;> [rw [if_pos hb]; rw [if_neg hb]] <;> omega

/-- The number of selected columns equals the size of the intersection of
the region with the genome span actually covered by the anchor row's
non-gap characters. -/
theorem ltr_indices_length (s : List Char) (start lo hi : Nat) :
    (ltr_indices (aln_to_genome start s) lo hi).length =
      (Finset.Ico lo hi ∩ Finset.Ico start (start + cntNonGap s)).card := by
  rw [ltr_indices, ltr_indices_from_length, countP_sel_eq,
    Finset.Ico_inter_Ico, Nat.card_Ico]

theorem alignedCount_le (seq : List Char) (idxs : List Nat) :
    alignedCount seq idxs ≤ idxs.length := by
  calc alignedCount seq idxs
      ≤ (idxs.map (fun i => seq.getD i '-')).length :=
        List.length_filter_le _ _
    _ = idxs.length := List.length_map _ _

/-! ### Characterization of the accumulation -/

theorem accumSpecies_cons (chrom : String) (ov : Region) (idxs : List Nat)
    (rec : SeqRecord) (rest : Alignment) (agg : List (AggKey × Nat)) :
    accumSpecies chrom ov idxs (rec :: rest) agg =
      accumSpecies chrom ov idxs rest
        (if speciesOf rec.id = "hg38" then agg
         else updAssoc agg (chrom, ov.lo, ov.hi, ov.data, speciesOf rec.id)
            (alignedCount rec.seq idxs)) := rfl

/-- The species loop leaves an accumulator entry untouched when its key
does not name this region with a non-anchor species. -/
theorem accumSpecies_lookup_other (chrom : String) (ov : Region) (idxs : List Nat)
    (aln : Alignment) (agg : List (AggKey × Nat)) (k : AggKey)
    (hk : k.1 ≠ chrom ∨ k.2.1 ≠ ov.lo ∨ k.2.2.1 ≠ ov.hi ∨ k.2.2.2.1 ≠ ov.data ∨
      k.2.2.2.2 = "hg38") :
    lookupA (accumSpecies chrom ov idxs aln agg) k = lookupA agg k := by
  induction aln generalizing agg with
  | nil => rfl
  | cons rec rest ih =>
    rw [accumSpecies_cons]
    by_cases hsp : speciesOf rec.id = "hg38"
    · rw [if_pos hsp, ih]
    · rw [if_neg hsp, ih, lookupA_updAssoc_ne]
      rintro rfl
      rcases hk with h | h | h | h | h
      · exact h rfl
      · exact h rfl
      · exact h rfl
      · exact h rfl
      · exact hsp h

theorem blockContribFor_nil_filter {aln : Alignment} {idxs : List Nat} {s : String}
    (hf : aln.filter (fun r => decide (speciesOf r.id = s)) = []) :
    blockContribFor aln idxs s = 0 := by
  rw [blockContribFor, hf]
  rfl

/-- The species loop on the entry of this region and a non-anchor species
`s`: unchanged when no row of species `s` exists, otherwise the previous
value (0 for an absent entry) plus the block's contribution for `s`. -/
theorem accumSpecies_lookup_self (chrom : String) (ov : Region) (idxs : List Nat)
    (aln : Alignment) (agg : List (AggKey × Nat)) (s : String) (hs : s ≠ "hg38") :
    lookupA (accumSpecies chrom ov idxs aln agg) (chrom, ov.lo, ov.hi, ov.data, s) =
      if aln.filter (fun r => decide (speciesOf r.id = s)) = []
      then lookupA agg (chrom, ov.lo, ov.hi, ov.data, s)
      else some (valA agg (chrom, ov.lo, ov.hi, ov.data, s) + blockContribFor aln idxs s) := by
  induction aln generalizing agg with
  | nil => simp [accumSpecies]
  | cons rec rest ih =>
    rw [accumSpecies_cons]
    by_cases hsp : speciesOf rec.id = "hg38"
    · have hne : speciesOf rec.id ≠ s := fun hcontra => hs (hcontra.symm.trans hsp)
      have hf : (rec :: rest).filter (fun r => decide (speciesOf r.id = s)) =
          rest.filter (fun r => decide (speciesOf r.id = s)) := by
        simp [List.filter_cons, hne]
      have hcontrib : blockContribFor (rec :: rest) idxs s = blockContribFor rest idxs s := by
        rw [blockContribFor, blockContribFor, hf]
      rw [if_pos hsp, ih, hcontrib, hf]
    · rw [if_neg hsp]
      by_cases hss : speciesOf rec.id = s
      · have hf : (rec :: rest).filter (fun r => decide (speciesOf r.id = s)) =
            rec :: rest.filter (fun r => decide (speciesOf r.id = s)) := by
          simp [List.filter_cons, hss]
        have hcontrib : blockContribFor (rec :: rest) idxs s =
            alignedCount rec.seq idxs + blockContribFor rest idxs s := by
          rw [blockContribFor, hf, List.map_cons, List.sum_cons, ← blockContribFor]
        rw [hss, ih, hcontrib, hf, if_neg (List.cons_ne_nil _ _)]
        by_cases hfr : rest.filter (fun r => decide (speciesOf r.id = s)) = []
        · rw [if_pos hfr, lookupA_updAssoc_self, blockContribFor_nil_filter hfr]
          simp
        · rw [if_neg hfr]
          have hval : valA (updAssoc agg (chrom, ov.lo, ov.hi, ov.data, s)
              (alignedCount rec.seq idxs)) (chrom, ov.lo, ov.hi, ov.data, s) =
              valA agg (chrom, ov.lo, ov.hi, ov.data, s) + alignedCount rec.seq idxs := by
            rw [valA, lookupA_updAssoc_self]
            rfl
          rw [hval, Nat.add_assoc]
      · have hkne : ((chrom, ov.lo, ov.hi, ov.data, s) : AggKey) ≠
            (chrom, ov.lo, ov.hi, ov.data, speciesOf rec.id) := fun h =>
          hss (congrArg (fun k : AggKey => k.2.2.2.2) h).symm
        have hf : (rec :: rest).filter (fun r => decide (speciesOf r.id = s)) =
            rest.filter (fun r => decide (speciesOf r.id = s)) := by
          simp [List.filter_cons, hss]
        have hcontrib : blockContribFor (rec :: rest) idxs s = blockContribFor rest idxs s := by
          rw [blockContribFor, blockContribFor, hf]
        have hval : valA (updAssoc agg (chrom, ov.lo, ov.hi, ov.data, speciesOf rec.id)
            (alignedCount rec.seq idxs)) (chrom, ov.lo, ov.hi, ov.data, s) =
            valA agg (chrom, ov.lo, ov.hi, ov.data, s) := by
          rw [valA, valA, lookupA_updAssoc_ne _ _ _ _ hkne]
        rw [ih, hcontrib, hf, lookupA_updAssoc_ne _ _ _ _ hkne, hval]

/-! ### Characterization of one region's processing -/

theorem processRegion_agg_other (chrom : String) (h : SeqRecord) (aln : Alignment)
    (st : AggState) (ov : Region) (k : AggKey)
    (hk : k.1 ≠ chrom ∨ k.2.1 ≠ ov.lo ∨ k.2.2.1 ≠ ov.hi ∨ k.2.2.2.1 ≠ ov.data ∨
      k.2.2.2.2 = "hg38") :
    lookupA (processRegion chrom h aln st ov).agg k = lookupA st.agg k := by
  simp only [processRegion]
  by_cases hidx : ltr_indices (aln_to_genome h.start h.seq) ov.lo ov.hi = []
  · rw [if_pos hidx]
  · rw [if_neg hidx]
    exact accumSpecies_lookup_other chrom ov _ aln st.agg k hk

theorem processRegion_agg_self (chrom : String) (h : SeqRecord) (aln : Alignment)
    (st : AggState) (ov : Region) (s : String) (hs : s ≠ "hg38") :
    lookupA (processRegion chrom h aln st ov).agg (chrom, ov.lo, ov.hi, ov.data, s) =
      if ltr_indices (aln_to_genome h.start h.seq) ov.lo ov.hi = [] ∨
          aln.filter (fun r => decide (speciesOf r.id = s)) = []
      then lookupA st.agg (chrom, ov.lo, ov.hi, ov.data, s)
      else some (valA st.agg (chrom, ov.lo, ov.hi, ov.data, s) +
        blockContribFor aln (ltr_indices (aln_to_genome h.start h.seq) ov.lo ov.hi) s) := by
  simp only [processRegion]
  by_cases hidx : ltr_indices (aln_to_genome h.start h.seq) ov.lo ov.hi = []
  · rw [if_pos hidx, if_pos (Or.inl hidx)]
  · rw [if_neg hidx]
    rw [accumSpecies_lookup_self chrom ov _ aln st.agg s hs]
    by_cases hfr : aln.filter (fun r => decide (speciesOf r.id = s)) = []
    · rw [if_pos hfr, if_pos (Or.inr hfr)]
    · rw [if_neg hfr, if_neg (by
        rintro (hcontra | hcontra)
        · exact hidx hcontra
        · exact hfr hcontra)]

theorem processRegion_lens_lookup (chrom : String) (h : SeqRecord) (aln : Alignment)
    (st : AggState) (ov : Region) (c : String) (b e : Nat) (n : String) :
    lookupA (processRegion chrom h aln st ov).lens (c, b, e, n) =
      if c = chrom ∧ b = ov.lo ∧ e = ov.hi ∧ n = ov.data
      then some (ov.hi - ov.lo)
      else lookupA st.lens (c, b, e, n) := by
  have hlens : (processRegion chrom h aln st ov).lens =
      setAssoc st.lens (chrom, ov.lo, ov.hi, ov.data) (ov.hi - ov.lo) := by
    simp only [processRegion]
    by_cases hidx : ltr_indices (aln_to_genome h.start h.seq) ov.lo ov.hi = [] <;>
      simp [hidx]
  rw [hlens]
  by_cases hkey : c = chrom ∧ b = ov.lo ∧ e = ov.hi ∧ n = ov.data
  · obtain ⟨rfl, rfl, rfl, rfl⟩ := hkey
    rw [if_pos ⟨rfl, rfl, rfl, rfl⟩, lookupA_setAssoc_self]
  · rw [if_neg hkey, lookupA_setAssoc_ne]
    intro hkeq
    exact hkey ⟨congrArg (fun p : LenKey => p.1) hkeq,
      congrArg (fun p : LenKey => p.2.1) hkeq,
      congrArg (fun p : LenKey => p.2.2.1) hkeq,
      congrArg (fun p : LenKey => p.2.2.2) hkeq⟩

/-! ### Folding over the overlapping regions -/

theorem foldRegions_agg_chromOrAnchor (chrom : String) (h : SeqRecord) (aln : Alignment)
    (rs : List Region) (st : AggState) (k : AggKey)
    (hk : k.1 ≠ chrom ∨ k.2.2.2.2 = "hg38") :
    lookupA ((rs.foldl (processRegion chrom h aln) st)).agg k = lookupA st.agg k := by
  induction rs generalizing st with
  | nil => rfl
  | cons ov rs ih =>
    rw [List.foldl_cons, ih]
    exact processRegion_agg_other chrom h aln st ov k (by
      rcases hk with hk | hk
      · exact Or.inl hk
      · exact Or.inr (Or.inr (Or.inr (Or.inr hk))))

theorem foldRegions_agg_noRegion (chrom : String) (h : SeqRecord) (aln : Alignment)
    (rs : List Region) (st : AggState) (c : String) (b e : Nat) (n s : String)
    (hmem : (⟨b, e, n⟩ : Region) ∉ rs) :
    lookupA ((rs.foldl (processRegion chrom h aln) st)).agg (c, b, e, n, s) =
      lookupA st.agg (c, b, e, n, s) := by
  induction rs generalizing st with
  | nil => rfl
  | cons ov rs ih =>
    have hov : ov ≠ (⟨b, e, n⟩ : Region) := fun hcontra =>
      hmem (hcontra ▸ List.mem_cons_self ov rs)
    have hmem2 : (⟨b, e, n⟩ : Region) ∉ rs := fun hcontra =>
      hmem (List.mem_cons_of_mem ov hcontra)
    rw [List.foldl_cons, ih _ hmem2]
    refine processRegion_agg_other chrom h aln st ov _ ?_
    by_cases h1 : b = ov.lo
    · by_cases h2 : e = ov.hi
      · by_cases h3 : n = ov.data
        · exact absurd (by cases ov; simp_all) hov
        · exact Or.inr (Or.inr (Or.inr (Or.inl h3)))
      · exact Or.inr (Or.inr (Or.inl h2))
    · exact Or.inr (Or.inl h1)

theorem foldRegions_agg_self (chrom : String) (h : SeqRecord) (aln : Alignment)
    (rs : List Region) (st : AggState) (b e : Nat) (n s : String)
    (hnd : rs.Nodup) (hs : s ≠ "hg38") (hmem : (⟨b, e, n⟩ : Region) ∈ rs) :
    lookupA ((rs.foldl (processRegion chrom h aln) st)).agg (chrom, b, e, n, s) =
      if ltr_indices (aln_to_genome h.start h.seq) b e = [] ∨
          aln.filter (fun r => decide (speciesOf r.id = s)) = []
      then lookupA st.agg (chrom, b, e, n, s)
      else some (valA st.agg (chrom, b, e, n, s) +
        blockContribFor aln (ltr_indices (aln_to_genome h.start h.seq) b e) s) := by
  induction rs generalizing st with
  | nil => exact absurd hmem (List.not_mem_nil _)
  | cons ov rs ih =>
    rw [List.foldl_cons]
    rcases List.mem_cons.1 hmem with hov | hov
    · have hov2 : ov = (⟨b, e, n⟩ : Region) := hov.symm
      subst hov2
      have hnotin : (⟨b, e, n⟩ : Region) ∉ rs := (List.nodup_cons.1 hnd).1
      rw [foldRegions_agg_noRegion chrom h aln rs _ chrom b e n s hnotin]
      have hself := processRegion_agg_self chrom h aln st ⟨b, e, n⟩ s hs
      simpa using hself
    · have hovne : ov ≠ (⟨b, e, n⟩ : Region) := by
        rintro rfl
        exact (List.nodup_cons.1 hnd).1 hov
      have hstep : lookupA (processRegion chrom h aln st ov).agg (chrom, b, e, n, s) =
          lookupA st.agg (chrom, b, e, n, s) := by
        refine processRegion_agg_other chrom h aln st ov _ ?_
        by_cases h1 : b = ov.lo
        · by_cases h2 : e = ov.hi
          · by_cases h3 : n = ov.data
            · exact absurd (by cases ov; simp_all) hovne
            · exact Or.inr (Or.inr (Or.inr (Or.inl h3)))
          · exact Or.inr (Or.inr (Or.inl h2))
        · exact Or.inr (Or.inl h1)
      have hval : valA (processRegion chrom h aln st ov).agg (chrom, b, e, n, s) =
          valA st.agg (chrom, b, e, n, s) := by
        rw [valA, valA, hstep]
      rw [ih _ (List.nodup_cons.1 hnd).2 hov, hstep, hval]

theorem foldRegions_lens (chrom : String) (h : SeqRecord) (aln : Alignment)
    (rs : List Region) (st : AggState) (c : String) (b e : Nat) (n : String) :
    lookupA ((rs.foldl (processRegion chrom h aln) st)).lens (c, b, e, n) =
      if c = chrom ∧ (⟨b, e, n⟩ : Region) ∈ rs
      then some (e - b)
      else lookupA st.lens (c, b, e, n) := by
  induction rs generalizing st with
  | nil => simp
  | cons ov rs ih =>
    rw [List.foldl_cons, ih]
    by_cases hc : c = chrom
    · by_cases hov : ov = (⟨b, e, n⟩ : Region)
      · subst hov
        by_cases hmem : (⟨b, e, n⟩ : Region) ∈ rs
        · rw [if_pos ⟨hc, hmem⟩, if_pos ⟨hc, List.mem_cons_self _ _⟩]
        · rw [if_neg (fun hcontra => hmem hcontra.2), processRegion_lens_lookup,
            if_pos ⟨hc, rfl, rfl, rfl⟩, if_pos ⟨hc, List.mem_cons_self _ _⟩]
      · have hkey : ¬(c = chrom ∧ b = ov.lo ∧ e = ov.hi ∧ n = ov.data) := by
          rintro ⟨_, h1, h2, h3⟩
          exact hov (by cases ov; simp_all)
        by_cases hmem : (⟨b, e, n⟩ : Region) ∈ rs
        · rw [if_pos ⟨hc, hmem⟩, if_pos ⟨hc, List.mem_cons_of_mem ov hmem⟩]
        · rw [if_neg (fun hcontra => hmem hcontra.2), processRegion_lens_lookup,
            if_neg hkey, if_neg (by
              rintro ⟨_, hcontra⟩
              rcases List.mem_cons.1 hcontra with hcontra | hcontra
              · exact hov hcontra.symm
              · exact hmem hcontra)]
    · rw [if_neg (fun hcontra => hc hcontra.1), processRegion_lens_lookup,
        if_neg (fun hcontra => hc hcontra.1), if_neg (fun hcontra => hc hcontra.1)]

/-! ### Block-level characterization -/

theorem processBlock_noAnchor (chrom : String) (regions : List Region) (st : AggState)
    (aln : Alignment) (hh : findHuman aln = none) :
    processBlock chrom regions st aln = st := by
  unfold processBlock
  rw [hh]

theorem processBlock_agg_chromOrAnchor (chrom : String) (regions : List Region)
    (st : AggState) (aln : Alignment) (k : AggKey)
    (hk : k.1 ≠ chrom ∨ k.2.2.2.2 = "hg38") :
    lookupA (processBlock chrom regions st aln).agg k = lookupA st.agg k := by
  unfold processBlock
  cases hh : findHuman aln with
  | none => rfl
  | some h0 => exact foldRegions_agg_chromOrAnchor chrom h0 aln _ st k hk

theorem processBlock_agg_self (chrom : String) (regions : List Region) (st : AggState)
    (aln : Alignment) (h0 : SeqRecord) (b e : Nat) (n s : String)
    (hh : findHuman aln = some h0) (hnd : regions.Nodup) (hs : s ≠ "hg38") :
    lookupA (processBlock chrom regions st aln).agg (chrom, b, e, n, s) =
      if (⟨b, e, n⟩ : Region) ∈ overlapQuery regions h0.start (h0.start + h0.size) ∧
          ltr_indices (aln_to_genome h0.start h0.seq) b e ≠ [] ∧
          aln.filter (fun r => decide (speciesOf r.id = s)) ≠ []
      then some (valA st.agg (chrom, b, e, n, s) +
        blockContribFor aln (ltr_indices (aln_to_genome h0.start h0.seq) b e) s)
      else lookupA st.agg (chrom, b, e, n, s) := by
  have hrw : processBlock chrom regions st aln =
      (overlapQuery regions h0.start (h0.start + h0.size)).foldl
        (processRegion chrom h0 aln) st := by
    unfold processBlock
    rw [hh]
  rw [hrw]
  have hndov : (overlapQuery regions h0.start (h0.start + h0.size)).Nodup :=
    List.Nodup.filter _ hnd
  by_cases hmem : (⟨b, e, n⟩ : Region) ∈ overlapQuery regions h0.start (h0.start + h0.size)
  · rw [foldRegions_agg_self chrom h0 aln _ st b e n s hndov hs hmem]
    by_cases hcond : ltr_indices (aln_to_genome h0.start h0.seq) b e = [] ∨
        aln.filter (fun r => decide (speciesOf r.id = s)) = []
    · rw [if_pos hcond, if_neg (by
        rintro ⟨_, hi1, hi2⟩
        rcases hcond with hcond | hcond
        · exact hi1 hcond
        · exact hi2 hcond)]
    · push_neg at hcond
      rw [if_neg (by
          rintro (hcontra | hcontra)
          · exact hcond.1 hcontra
          · exact hcond.2 hcontra),
        if_pos ⟨hmem, hcond.1, hcond.2⟩]
  · rw [foldRegions_agg_noRegion chrom h0 aln _ st chrom b e n s hmem,
      if_neg (fun hcontra => hmem hcontra.1)]

theorem processBlock_lens (chrom : String) (regions : List Region) (st : AggState)
    (aln : Alignment) (h0 : SeqRecord) (c : String) (b e : Nat) (n : String)
    (hh : findHuman aln = some h0) :
    lookupA (processBlock chrom regions st aln).lens (c, b, e, n) =
      if c = chrom ∧ (⟨b, e, n⟩ : Region) ∈ overlapQuery regions h0.start (h0.start + h0.size)
      then some (e - b)
      else lookupA st.lens (c, b, e, n) := by
  have hrw : processBlock chrom regions st aln =
      (overlapQuery regions h0.start (h0.start + h0.size)).foldl
        (processRegion chrom h0 aln) st := by
    unfold processBlock
    rw [hh]
  rw [hrw]
  exact foldRegions_lens chrom h0 aln _ st c b e n

/-! ### Bounding one block's contribution -/

theorem length_filter_species_le_one (aln : Alignment) (s : String)
    (hnd : (aln.map (fun r => speciesOf r.id)).Nodup) :
    (aln.filter (fun r => decide (speciesOf r.id = s))).length ≤ 1 := by
  induction aln with
  | nil => simp
  | cons rec rest ih =>
    obtain ⟨hnotin, hrest⟩ := List.nodup_cons.1 hnd
    by_cases hsp : speciesOf rec.id = s
    · have hfr : rest.filter (fun r => decide (speciesOf r.id = s)) = [] := by
        rw [List.filter_eq_nil_iff]
        intro r hr
        simp only [decide_eq_true_eq]
        intro hcontra
        exact hnotin (List.mem_map.2 ⟨r, hr, hcontra.trans hsp.symm⟩)
      have hf : (rec :: rest).filter (fun r => decide (speciesOf r.id = s)) =
          rec :: rest.filter (fun r => decide (speciesOf r.id = s)) := by
        simp [List.filter_cons, hsp]
      rw [hf, hfr]
      simp
    · have hf : (rec :: rest).filter (fun r => decide (speciesOf r.id = s)) =
          rest.filter (fun r => decide (speciesOf r.id = s)) := by
        simp [List.filter_cons, hsp]
      rw [hf]
      exact ih hrest

theorem blockContribFor_le (aln : Alignment) (idxs : List Nat) (s : String)
    (hnd : (aln.map (fun r => speciesOf r.id)).Nodup) :
    blockContribFor aln idxs s ≤ idxs.length := by
  rw [blockContribFor]
  cases hf : aln.filter (fun r => decide (speciesOf r.id = s)) with
  | nil => simp
  | cons rec rest =>
    cases rest with
    | nil =>
      simp only [List.map_cons, List.map_nil, List.sum_cons, List.sum_nil, Nat.add_zero]
      exact alignedCount_le rec.seq idxs
    | cons rec2 rest2 =>
      exfalso
      have := length_filter_species_le_one aln s hnd
      rw [hf] at this
      simp at this

theorem cntNonGap_of_anchor {aln : Alignment} {h0 : SeqRecord}
    (hh : findHuman aln = some h0) (hwf : wellFormedBlock aln) :
    cntNonGap h0.seq = h0.size := by
  have hmem : h0 ∈ aln := List.mem_of_find?_eq_some hh
  exact hwf.2.2 h0 hmem

/-- The contribution a single block adds to the accumulator entry of a
region `[b, e)` is at most the size of the overlap between the region and
the block's anchor span. -/
theorem processBlock_agg_bound (chrom : String) (regions : List Region) (st : AggState)
    (aln : Alignment) (b e : Nat) (n s : String)
    (hnd : regions.Nodup) (hwf : wellFormedBlock aln) :
    valA (processBlock chrom regions st aln).agg (chrom, b, e, n, s) ≤
      valA st.agg (chrom, b, e, n, s) + (Finset.Ico b e ∩ blockSpanF aln).card := by
  cases hh : findHuman aln with
  | none =>
    rw [processBlock_noAnchor chrom regions st aln hh]
    exact Nat.le_add_right _ _
  | some h0 =>
    by_cases hs : s = "hg38"
    · rw [valA, processBlock_agg_chromOrAnchor chrom regions st aln _ (Or.inr hs), ← valA]
      exact Nat.le_add_right _ _
    · rw [valA, processBlock_agg_self chrom regions st aln h0 b e n s hh hnd hs]
      by_cases hcond : (⟨b, e, n⟩ : Region) ∈
            overlapQuery regions h0.start (h0.start + h0.size) ∧
          ltr_indices (aln_to_genome h0.start h0.seq) b e ≠ [] ∧
          aln.filter (fun r => decide (speciesOf r.id = s)) ≠ []
      · rw [if_pos hcond]
        have hb : blockContribFor aln (ltr_indices (aln_to_genome h0.start h0.seq) b e) s ≤
            (Finset.Ico b e ∩ blockSpanF aln).card := by
          calc blockContribFor aln (ltr_indices (aln_to_genome h0.start h0.seq) b e) s
              ≤ (ltr_indices (aln_to_genome h0.start h0.seq) b e).length :=
                blockContribFor_le aln _ s hwf.2.1
            _ = (Finset.Ico b e ∩ Finset.Ico h0.start (h0.start + cntNonGap h0.seq)).card :=
                ltr_indices_length h0.seq h0.start b e
            _ = (Finset.Ico b e ∩ blockSpanF aln).card := by
                rw [cntNonGap_of_anchor hh hwf, blockSpanF, hh]
        simp only [Option.getD_some]
        omega
      · rw [if_neg hcond, ← valA]
        exact Nat.le_add_right _ _

/-! ### Disjoint spans sum bound -/

theorem sum_card_inter_le (T : Finset Nat) (L : List (Finset Nat))
    (hdisj : L.Pairwise Disjoint) :
    (L.map (fun S => (T ∩ S).card)).sum ≤ T.card := by
  induction L generalizing T with
  | nil => simp
  | cons S L ih =>
    obtain ⟨hS, hL⟩ := List.pairwise_cons.1 hdisj
    have hmap : L.map (fun S2 => (T ∩ S2).card) = L.map (fun S2 => ((T \ S) ∩ S2).card) := by
      refine List.map_congr_left ?_
      intro S2 hS2
      congr 1
      ext x
      simp only [Finset.mem_inter, Finset.mem_sdiff]
      constructor
      · rintro ⟨hxT, hxS2⟩
        exact ⟨⟨hxT, fun hxS => (Finset.disjoint_left.1 (hS S2 hS2)) hxS hxS2⟩, hxS2⟩
      · rintro ⟨⟨hxT, _⟩, hxS2⟩
        exact ⟨hxT, hxS2⟩
    rw [List.map_cons, List.sum_cons, hmap]
    have hrec := ih (T \ S) hL
    have hcard : (T ∩ S).card + (T \ S).card = T.card :=
      Finset.card_inter_add_card_sdiff T S
    omega

/-! ### Where can an accumulator entry come from? -/

theorem accumSpecies_isSome_touch (chrom : String) (ov : Region) (idxs : List Nat)
    (aln : Alignment) (agg : List (AggKey × Nat)) (c : String) (b e : Nat) (n s : String)
    (h : (lookupA (accumSpecies chrom ov idxs aln agg) (c, b, e, n, s)).isSome) :
    (lookupA agg (c, b, e, n, s)).isSome ∨
      (c = chrom ∧ b = ov.lo ∧ e = ov.hi ∧ n = ov.data ∧ s ≠ "hg38" ∧
        ∃ r ∈ aln, speciesOf r.id = s) := by
  induction aln generalizing agg with
  | nil => exact Or.inl h
  | cons rec rest ih =>
    rw [accumSpecies_cons] at h
    by_cases hsp : speciesOf rec.id = "hg38"
    · rw [if_pos hsp] at h
      rcases ih agg h with h1 | ⟨h1, h2, h3, h4, h5, r, hr, hr2⟩
      · exact Or.inl h1
      · exact Or.inr ⟨h1, h2, h3, h4, h5, r, List.mem_cons_of_mem rec hr, hr2⟩
    · rw [if_neg hsp] at h
      rcases ih _ h with h1 | ⟨h1, h2, h3, h4, h5, r, hr, hr2⟩
      · rcases lookupA_isSome_updAssoc h1 with h2 | h2
        · exact Or.inl h2
        · have hc : c = chrom := congrArg (fun k : AggKey => k.1) h2
          have hb : b = ov.lo := congrArg (fun k : AggKey => k.2.1) h2
          have he : e = ov.hi := congrArg (fun k : AggKey => k.2.2.1) h2
          have hn : n = ov.data := congrArg (fun k : AggKey => k.2.2.2.1) h2
          have hsval : s = speciesOf rec.id := congrArg (fun k : AggKey => k.2.2.2.2) h2
          exact Or.inr ⟨hc, hb, he, hn, fun hcontra => hsp (hsval ▸ hcontra),
            rec, List.mem_cons_self rec rest, hsval.symm⟩
      · exact Or.inr ⟨h1, h2, h3, h4, h5, r, List.mem_cons_of_mem rec hr, hr2⟩

theorem processRegion_isSome_touch (chrom : String) (h0 : SeqRecord) (aln : Alignment)
    (st : AggState) (ov : Region) (c : String) (b e : Nat) (n s : String)
    (h : (lookupA (processRegion chrom h0 aln st ov).agg (c, b, e, n, s)).isSome) :
    (lookupA st.agg (c, b, e, n, s)).isSome ∨
      (c = chrom ∧ b = ov.lo ∧ e = ov.hi ∧ n = ov.data ∧ s ≠ "hg38" ∧
        ltr_indices (aln_to_genome h0.start h0.seq) ov.lo ov.hi ≠ [] ∧
        ∃ r ∈ aln, speciesOf r.id = s) := by
  by_cases hidx : ltr_indices (aln_to_genome h0.start h0.seq) ov.lo ov.hi = []
  · left
    have hagg : (processRegion chrom h0 aln st ov).agg = st.agg := by
      simp only [processRegion]
      rw [if_pos hidx]
    rwa [hagg] at h
  · have hagg : (processRegion chrom h0 aln st ov).agg =
        accumSpecies chrom ov (ltr_indices (aln_to_genome h0.start h0.seq) ov.lo ov.hi)
          aln st.agg := by
      simp only [processRegion]
      rw [if_neg hidx]
    rw [hagg] at h
    rcases accumSpecies_isSome_touch chrom ov _ aln st.agg c b e n s h with
      h1 | ⟨h1, h2, h3, h4, h5, hr⟩
    · exact Or.inl h1
    · exact Or.inr ⟨h1, h2, h3, h4, h5, hidx, hr⟩

theorem foldRegions_isSome_touch (chrom : String) (h0 : SeqRecord) (aln : Alignment)
    (rs : List Region) (st : AggState) (c : String) (b e : Nat) (n s : String)
    (h : (lookupA ((rs.foldl (processRegion chrom h0 aln) st)).agg (c, b, e, n, s)).isSome) :
    (lookupA st.agg (c, b, e, n, s)).isSome ∨
      (∃ ov ∈ rs, c = chrom ∧ b = ov.lo ∧ e = ov.hi ∧ n = ov.data ∧ s ≠ "hg38" ∧
        ltr_indices (aln_to_genome h0.start h0.seq) ov.lo ov.hi ≠ [] ∧
        ∃ r ∈ aln, speciesOf r.id = s) := by
  induction rs generalizing st with
  | nil => exact Or.inl h
  | cons ov rs ih =>
    rw [List.foldl_cons] at h
    rcases ih _ h with h1 | ⟨ov2, hov2, hrest⟩
    · rcases processRegion_isSome_touch chrom h0 aln st ov c b e n s h1 with
        h2 | ⟨h2, h3, h4, h5, h6, h7, h8⟩
      · exact Or.inl h2
      · exact Or.inr ⟨ov, List.mem_cons_self ov rs, h2, h3, h4, h5, h6, h7, h8⟩
    · exact Or.inr ⟨ov2, List.mem_cons_of_mem ov hov2, hrest⟩

theorem processBlock_isSome_touch (chrom : String) (regions : List Region) (st : AggState)
    (aln : Alignment) (c : String) (b e : Nat) (n s : String)
    (h : (lookupA (processBlock chrom regions st aln).agg (c, b, e, n, s)).isSome) :
    (lookupA st.agg (c, b, e, n, s)).isSome ∨
      touchesKey chrom regions aln c b e n s = true := by
  cases hh : findHuman aln with
  | none =>
    rw [processBlock_noAnchor chrom regions st aln hh] at h
    exact Or.inl h
  | some h0 =>
    have hrw : processBlock chrom regions st aln =
        (overlapQuery regions h0.start (h0.start + h0.size)).foldl
          (processRegion chrom h0 aln) st := by
      unfold processBlock
      rw [hh]
    rw [hrw] at h
    rcases foldRegions_isSome_touch chrom h0 aln _ st c b e n s h with
      h1 | ⟨ov, hovmem, hc, hb, he, hn, hs, hidx, r, hr, hr2⟩
    · exact Or.inl h1
    · right
      have htk : touchesKey chrom regions aln c b e n s =
          ((decide (c = chrom) && decide (s ≠ "hg38") &&
            (overlapQuery regions h0.start (h0.start + h0.size)).any
              (fun ov =>
                decide (ov.lo = b) && decide (ov.hi = e) && decide (ov.data = n) &&
                decide (ltr_indices (aln_to_genome h0.start h0.seq) ov.lo ov.hi ≠ []))) &&
            aln.any (fun r => decide (speciesOf r.id = s))) := by
        unfold touchesKey
        rw [hh]
      rw [htk]
      simp only [Bool.and_eq_true, List.any_eq_true, decide_eq_true_eq]
      exact ⟨⟨⟨hc, hs⟩, ov, hovmem, ⟨⟨hb.symm, he.symm⟩, hn.symm⟩, hidx⟩, r, hr, hr2⟩

/-! ### Preservation of the structural invariant -/

theorem keysNodup_accumSpecies (chrom : String) (ov : Region) (idxs : List Nat)
    (aln : Alignment) (agg : List (AggKey × Nat)) (hnd : keysNodup agg) :
    keysNodup (accumSpecies chrom ov idxs aln agg) := by
  induction aln generalizing agg with
  | nil => exact hnd
  | cons rec rest ih =>
    rw [accumSpecies_cons]
    by_cases hsp : speciesOf rec.id = "hg38"
    · rw [if_pos hsp]
      exact ih agg hnd
    · rw [if_neg hsp]
      exact ih _ (keysNodup_updAssoc _ _ _ hnd)

theorem processRegion_lens_eq (chrom : String) (h0 : SeqRecord) (aln : Alignment)
    (st : AggState) (ov : Region) :
    (processRegion chrom h0 aln st ov).lens =
      setAssoc st.lens (chrom, ov.lo, ov.hi, ov.data) (ov.hi - ov.lo) := by
  simp only [processRegion]
  by_cases hidx : ltr_indices (aln_to_genome h0.start h0.seq) ov.lo ov.hi = [] <;>
    simp [hidx]

theorem processRegion_lens_isSome (chrom : String) (h0 : SeqRecord) (aln : Alignment)
    (st : AggState) (ov : Region) (c : String) (b e : Nat) (n : String)
    (h : (lookupA st.lens (c, b, e, n)).isSome) :
    (lookupA (processRegion chrom h0 aln st ov).lens (c, b, e, n)).isSome := by
  rw [processRegion_lens_lookup]
  by_cases hkey : c = chrom ∧ b = ov.lo ∧ e = ov.hi ∧ n = ov.data
  · rw [if_pos hkey]
    rfl
  · rwa [if_neg hkey]

theorem stInv_processRegion (chrom : String) (h0 : SeqRecord) (aln : Alignment)
    (st : AggState) (ov : Region) (hinv : StInv st) :
    StInv (processRegion chrom h0 aln st ov) := by
  obtain ⟨hka, hkl, hcanon, hcov⟩ := hinv
  refine ⟨?_, ?_, ?_, ?_⟩
  · by_cases hidx : ltr_indices (aln_to_genome h0.start h0.seq) ov.lo ov.hi = []
    · have hagg : (processRegion chrom h0 aln st ov).agg = st.agg := by
        simp only [processRegion]
        rw [if_pos hidx]
      rw [hagg]
      exact hka
    · have hagg : (processRegion chrom h0 aln st ov).agg =
          accumSpecies chrom ov (ltr_indices (aln_to_genome h0.start h0.seq) ov.lo ov.hi)
            aln st.agg := by
        simp only [processRegion]
        rw [if_neg hidx]
      rw [hagg]
      exact keysNodup_accumSpecies _ _ _ _ _ hka
  · rw [processRegion_lens_eq]
    exact keysNodup_setAssoc _ _ _ hkl
  · intro c b e n v hv
    rw [processRegion_lens_lookup] at hv
    by_cases hkey : c = chrom ∧ b = ov.lo ∧ e = ov.hi ∧ n = ov.data
    · rw [if_pos hkey] at hv
      obtain ⟨_, rfl, rfl, _⟩ := hkey
      exact (Option.some.injEq .. ▸ hv).symm
    · rw [if_neg hkey] at hv
      exact hcanon c b e n v hv
  · intro c b e n s hsm
    rcases processRegion_isSome_touch chrom h0 aln st ov c b e n s hsm with
      h1 | ⟨h1, h2, h3, h4, _, _, _⟩
    · exact processRegion_lens_isSome chrom h0 aln st ov c b e n (hcov c b e n s h1)
    · rw [processRegion_lens_lookup, if_pos ⟨h1, h2, h3, h4⟩]
      rfl

theorem stInv_foldRegions (chrom : String) (h0 : SeqRecord) (aln : Alignment)
    (rs : List Region) (st : AggState) (hinv : StInv st) :
    StInv (rs.foldl (processRegion chrom h0 aln) st) := by
  induction rs generalizing st with
  | nil => exact hinv
  | cons ov rs ih =>
    rw [List.foldl_cons]
    exact ih _ (stInv_processRegion chrom h0 aln st ov hinv)

theorem stInv_processBlock (chrom : String) (regions : List Region) (st : AggState)
    (aln : Alignment) (hinv : StInv st) :
    StInv (processBlock chrom regions st aln) := by
  cases hh : findHuman aln with
  | none =>
    rw [processBlock_noAnchor chrom regions st aln hh]
    exact hinv
  | some h0 =>
    have hrw : processBlock chrom regions st aln =
        (overlapQuery regions h0.start (h0.start + h0.size)).foldl
          (processRegion chrom h0 aln) st := by
      unfold processBlock
      rw [hh]
    rw [hrw]
    exact stInv_foldRegions chrom h0 aln _ st hinv

theorem stInv_processChrom (chrom : String) (regions : List Region) (st : AggState)
    (alns : List Alignment) (hinv : StInv st) :
    StInv (processChrom chrom regions st alns) := by
  induction alns generalizing st with
  | nil => exact hinv
  | cons aln alns ih =>
    simp only [processChrom, List.foldl_cons]
    simp only [processChrom] at ih
    exact ih _ (stInv_processBlock chrom regions st aln hinv)

theorem stInv_empty : StInv ⟨[], []⟩ := by
  refine ⟨List.nodup_nil, List.nodup_nil, ?_, ?_⟩
  · intro c b e n v hv
    simp [lookupA] at hv
  · intro c b e n s hsm
    simp [lookupA] at hsm

theorem stInv_runScan (inputs : List ChromInput) : StInv (runScan inputs) := by
  rw [runScan]
  generalize hst : (⟨[], []⟩ : AggState) = st
  have hinv : StInv st := hst ▸ stInv_empty
  clear hst
  induction inputs generalizing st with
  | nil => exact hinv
  | cons ci rest ih =>
    rw [List.foldl_cons]
    exact ih _ (stInv_processChrom ci.chrom ci.regions st ci.blocks hinv)

/-! ### Chromosome- and scan-level accumulator lemmas -/

theorem processChrom_agg_chromNe (chrom : String) (regions : List Region) (st : AggState)
    (alns : List Alignment) (k : AggKey) (hk : k.1 ≠ chrom) :
    lookupA (processChrom chrom regions st alns).agg k = lookupA st.agg k := by
  induction alns generalizing st with
  | nil => rfl
  | cons aln alns ih =>
    simp only [processChrom, List.foldl_cons]
    simp only [processChrom] at ih
    rw [ih _, processBlock_agg_chromOrAnchor chrom regions st aln k (Or.inl hk)]

theorem processChrom_agg_bound (chrom : String) (regions : List Region) (st : AggState)
    (alns : List Alignment) (b e : Nat) (n s : String)
    (hnd : regions.Nodup) (hwf : ∀ aln ∈ alns, wellFormedBlock aln) :
    valA (processChrom chrom regions st alns).agg (chrom, b, e, n, s) ≤
      valA st.agg (chrom, b, e, n, s) +
        (alns.map (fun aln => (Finset.Ico b e ∩ blockSpanF aln).card)).sum := by
  induction alns generalizing st with
  | nil => simp [processChrom]
  | cons aln alns ih =>
    simp only [processChrom, List.foldl_cons, List.map_cons, List.sum_cons]
    have h1 := ih (processBlock chrom regions st aln)
      (fun a ha => hwf a (List.mem_cons_of_mem aln ha))
    simp only [processChrom] at h1
    have h2 := processBlock_agg_bound chrom regions st aln b e n s hnd
      (hwf aln (List.mem_cons_self aln alns))
    omega

theorem processChrom_isSome_touch (chrom : String) (regions : List Region) (st : AggState)
    (alns : List Alignment) (c : String) (b e : Nat) (n s : String)
    (h : (lookupA (processChrom chrom regions st alns).agg (c, b, e, n, s)).isSome) :
    (lookupA st.agg (c, b, e, n, s)).isSome ∨
      ∃ aln ∈ alns, touchesKey chrom regions aln c b e n s = true := by
  induction alns generalizing st with
  | nil => exact Or.inl h
  | cons aln alns ih =>
    simp only [processChrom, List.foldl_cons] at h
    simp only [processChrom] at ih
    rcases ih _ h with h1 | ⟨a2, ha2, ht⟩
    · rcases processBlock_isSome_touch chrom regions st aln c b e n s h1 with h2 | h2
      · exact Or.inl h2
      · exact Or.inr ⟨aln, List.mem_cons_self aln alns, h2⟩
    · exact Or.inr ⟨a2, List.mem_cons_of_mem aln ha2, ht⟩

theorem foldInputs_agg_chromNotIn (inputs : List ChromInput) (st : AggState) (k : AggKey)
    (hk : ∀ ci ∈ inputs, ci.chrom ≠ k.1) :
    lookupA ((inputs.foldl (fun st ci => processChrom ci.chrom ci.regions st ci.blocks)
      st)).agg k = lookupA st.agg k := by
  induction inputs generalizing st with
  | nil => rfl
  | cons ci rest ih =>
    rw [List.foldl_cons, ih _ (fun cj hcj => hk cj (List.mem_cons_of_mem ci hcj)),
      processChrom_agg_chromNe ci.chrom ci.regions st ci.blocks k
        (fun hcontra => hk ci (List.mem_cons_self ci rest) hcontra.symm)]

theorem foldInputs_agg_le (inputs : List ChromInput) (st : AggState) (c : String)
    (b e : Nat) (n s : String)
    (hchr : (inputs.map (fun ci => ci.chrom)).Nodup)
    (hreg : ∀ ci ∈ inputs, ci.regions.Nodup)
    (hwf : ∀ ci ∈ inputs, ∀ aln ∈ ci.blocks, wellFormedBlock aln)
    (hdisj : ∀ ci ∈ inputs,
      ci.blocks.Pairwise (fun a1 a2 => Disjoint (blockSpanF a1) (blockSpanF a2))) :
    valA ((inputs.foldl (fun st ci => processChrom ci.chrom ci.regions st ci.blocks)
      st)).agg (c, b, e, n, s) ≤ valA st.agg (c, b, e, n, s) + (e - b) := by
  induction inputs generalizing st with
  | nil => exact Nat.le_add_right _ _
  | cons ci rest ih =>
    rw [List.foldl_cons]
    by_cases hc : ci.chrom = c
    · subst hc
      rw [List.map_cons] at hchr
      have hrest : ∀ cj ∈ rest, cj.chrom ≠ ci.chrom := by
        intro cj hcj hcontra
        exact (List.nodup_cons.1 hchr).1 (List.mem_map.2 ⟨cj, hcj, hcontra⟩)
      have huntouched := foldInputs_agg_chromNotIn rest
        (processChrom ci.chrom ci.regions st ci.blocks) (ci.chrom, b, e, n, s) hrest
      rw [valA, huntouched, ← valA]
      have hbound := processChrom_agg_bound ci.chrom ci.regions st ci.blocks b e n s
        (hreg ci (List.mem_cons_self ci rest)) (hwf ci (List.mem_cons_self ci rest))
      have hsum : ((ci.blocks.map
          (fun aln => (Finset.Ico b e ∩ blockSpanF aln).card)).sum) ≤ e - b := by
        have hpw : (ci.blocks.map blockSpanF).Pairwise Disjoint :=
          (List.pairwise_map).2 (hdisj ci (List.mem_cons_self ci rest))
        have := sum_card_inter_le (Finset.Ico b e) (ci.blocks.map blockSpanF) hpw
        rw [List.map_map, Nat.card_Ico] at this
        exact this
      omega
    · rw [List.map_cons] at hchr
      have hstep : lookupA (processChrom ci.chrom ci.regions st ci.blocks).agg
          (c, b, e, n, s) = lookupA st.agg (c, b, e, n, s) :=
        processChrom_agg_chromNe ci.chrom ci.regions st ci.blocks _
          (fun hcontra => hc hcontra.symm)
      have hvst : valA (processChrom ci.chrom ci.regions st ci.blocks).agg (c, b, e, n, s) =
          valA st.agg (c, b, e, n, s) := by
        rw [valA, valA, hstep]
      have hrec := ih (processChrom ci.chrom ci.regions st ci.blocks)
        (List.nodup_cons.1 hchr).2
        (fun cj hcj => hreg cj (List.mem_cons_of_mem ci hcj))
        (fun cj hcj => hwf cj (List.mem_cons_of_mem ci hcj))
        (fun cj hcj => hdisj cj (List.mem_cons_of_mem ci hcj))
      rw [hvst] at hrec
      exact hrec

theorem runScan_agg_le (inputs : List ChromInput) (c : String) (b e : Nat) (n s : String)
    (hchr : (inputs.map (fun ci => ci.chrom)).Nodup)
    (hreg : ∀ ci ∈ inputs, ci.regions.Nodup)
    (hwf : ∀ ci ∈ inputs, ∀ aln ∈ ci.blocks, wellFormedBlock aln)
    (hdisj : ∀ ci ∈ inputs,
      ci.blocks.Pairwise (fun a1 a2 => Disjoint (blockSpanF a1) (blockSpanF a2))) :
    valA (runScan inputs).agg (c, b, e, n, s) ≤ e - b := by
  have h := foldInputs_agg_le inputs ⟨[], []⟩ c b e n s hchr hreg hwf hdisj
  rw [runScan]
  have hempty : valA (⟨[], []⟩ : AggState).agg (c, b, e, n, s) = 0 := rfl
  rw [hempty, Nat.zero_add] at h
  exact h

theorem foldInputs_isSome_touch (inputs : List ChromInput) (st : AggState) (c : String)
    (b e : Nat) (n s : String)
    (h : (lookupA ((inputs.foldl (fun st ci => processChrom ci.chrom ci.regions st
      ci.blocks) st)).agg (c, b, e, n, s)).isSome) :
    (lookupA st.agg (c, b, e, n, s)).isSome ∨
      ∃ ci ∈ inputs, ∃ aln ∈ ci.blocks,
        touchesKey ci.chrom ci.regions aln c b e n s = true := by
  induction inputs generalizing st with
  | nil => exact Or.inl h
  | cons ci rest ih =>
    rw [List.foldl_cons] at h
    rcases ih _ h with h1 | ⟨cj, hcj, ht⟩
    · rcases processChrom_isSome_touch ci.chrom ci.regions st ci.blocks c b e n s h1 with
        h2 | ⟨aln, haln, ht⟩
      · exact Or.inl h2
      · exact Or.inr ⟨ci, List.mem_cons_self ci rest, aln, haln, ht⟩
    · exact Or.inr ⟨cj, List.mem_cons_of_mem ci hcj, ht⟩

theorem runScan_isSome_touch (inputs : List ChromInput) (c : String) (b e : Nat)
    (n s : String)
    (h : (lookupA (runScan inputs).agg (c, b, e, n, s)).isSome) :
    ∃ ci ∈ inputs, ∃ aln ∈ ci.blocks,
      touchesKey ci.chrom ci.regions aln c b e n s = true := by
  rw [runScan] at h
  rcases foldInputs_isSome_touch inputs ⟨[], []⟩ c b e n s h with h1 | h1
  · simp [lookupA] at h1
  · exact h1

/-! ### The block filter as a list filter -/

theorem process_chr_eq_filter (tree : List BxInterval) (blocks : List MafBlock) :
    process_chr tree blocks = blocks.filter (keepBlock tree) := by
  rw [process_chr]
  suffices h : ∀ acc : List MafBlock,
      blocks.foldl (fun out m => if keepBlock tree m then out ++ [m] else out) acc =
        acc ++ blocks.filter (keepBlock tree) by
    simpa using h []
  induction blocks with
  | nil => simp
  | cons m rest ih =>
    intro acc
    by_cases hm : keepBlock tree m
    · simp [hm, List.filter_cons, ih]
    · simp [hm, List.filter_cons, ih]

/-! ### Eliminating a touched key -/

theorem touchesKey_elim {chrom : String} {regions : List Region} {aln : Alignment}
    {c : String} {b e : Nat} {n s : String}
    (ht : touchesKey chrom regions aln c b e n s = true) :
    ∃ h0, findHuman aln = some h0 ∧ c = chrom ∧ s ≠ "hg38" ∧
      (∃ ov ∈ overlapQuery regions h0.start (h0.start + h0.size),
        ov.lo = b ∧ ov.hi = e ∧ ov.data = n ∧
        ltr_indices (aln_to_genome h0.start h0.seq) ov.lo ov.hi ≠ []) ∧
      ∃ r ∈ aln, speciesOf r.id = s := by
  cases hh : findHuman aln with
  | none =>
    have hfalse : touchesKey chrom regions aln c b e n s = false := by
      unfold touchesKey
      rw [hh]
    rw [hfalse] at ht
    exact absurd ht Bool.false_ne_true
  | some h0 =>
    have htk : touchesKey chrom regions aln c b e n s =
        ((decide (c = chrom) && decide (s ≠ "hg38") &&
          (overlapQuery regions h0.start (h0.start + h0.size)).any
            (fun ov =>
              decide (ov.lo = b) && decide (ov.hi = e) && decide (ov.data = n) &&
              decide (ltr_indices (aln_to_genome h0.start h0.seq) ov.lo ov.hi ≠ []))) &&
          aln.any (fun r => decide (speciesOf r.id = s))) := by
      unfold touchesKey
      rw [hh]
    rw [htk] at ht
    simp only [Bool.and_eq_true, List.any_eq_true, decide_eq_true_eq] at ht
    obtain ⟨⟨⟨hc, hs⟩, ov, hovmem, ⟨⟨hlo, hhi⟩, hdata⟩, hidx⟩, r, hr, hr2⟩ := ht
    exact ⟨h0, rfl, hc, hs, ⟨ov, hovmem, hlo, hhi, hdata, hidx⟩, r, hr, hr2⟩

unseal Rat.mul Rat.add Rat.inv in
theorem round3_zero : round3 0 = 0 := by decide

/-! ### Claim theorems -/

unseal Rat.mul Rat.add Rat.inv in
/-- Claim C1: coverage scenario.  For region `[100,110)` and a kept block
whose anchor row is `"ACGT--ACGT"` with reference_start 95 together with a
second species row `"ACGTAAACGT"`, the coordinate map is
`95,96,97,98,null,null,99,100,101,102`; the columns whose mapped position
lies in `[100,110)` are exactly 7, 8, 9; the second species accumulates
aligned_bases = 3 for that region, and the emitted coverage is
`round(3/10, 3) = 0.300`. -/
theorem claim_C1 :
    aln_to_genome 95 ("ACGT--ACGT".data) =
      [some 95, some 96, some 97, some 98, none, none,
        some 99, some 100, some 101, some 102] ∧
    ltr_indices (aln_to_genome 95 ("ACGT--ACGT".data)) 100 110 = [7, 8, 9] ∧
    (runScan [⟨"1", [⟨100, 110, "chr1:100-110"⟩],
        [[⟨"hg38.chr1", 95, 8, "ACGT--ACGT".data⟩,
          ⟨"panTro4.chr1", 12, 10, "ACGTAAACGT".data⟩]]⟩]).agg =
      [(("1", 100, 110, "chr1:100-110", "panTro4"), 3)] ∧
    buildRecords (runScan [⟨"1", [⟨100, 110, "chr1:100-110"⟩],
        [[⟨"hg38.chr1", 95, 8, "ACGT--ACGT".data⟩,
          ⟨"panTro4.chr1", 12, 10, "ACGTAAACGT".data⟩]]⟩]) =
      [⟨"1", 100, 110, "chr1:100-110", "panTro4", 3, 10, (3 : ℚ) / 10⟩] := by
  decide

/-- Claim C2: for every anchor alignment string and reference start the
coordinate map has one entry per alignment column; a gap column maps to no
position and leaves the counter unchanged while a non-gap column maps to
the current counter value (reference_start plus the number of earlier
non-gap columns) which is then incremented; hence the non-null entries are
exactly the non-gap columns, strictly increase, start at reference_start,
and the final counter equals reference_start plus the number of non-gap
characters. -/
theorem claim_C2 (start : Nat) (s : List Char) :
    (aln_to_genome start s).length = s.length ∧
    (∀ (i : Nat) (c : Char), s[i]? = some c →
      ((aln_to_genome start s)[i]? = some none ↔ c = '-')) ∧
    (∀ (i g : Nat), (aln_to_genome start s)[i]? = some (some g) →
      g = start + cntNonGap (s.take i)) ∧
    (∀ (i j gi gj : Nat), i < j → (aln_to_genome start s)[i]? = some (some gi) →
      (aln_to_genome start s)[j]? = some (some gj) → gi < gj) ∧
    (∀ (i g : Nat), (aln_to_genome start s)[i]? = some (some g) → start ≤ g) ∧
    (∀ (i g : Nat), (aln_to_genome start s)[i]? = some (some g) →
      (∀ j : Nat, j < i → (aln_to_genome start s)[j]? = some none) → g = start) ∧
    finalGpos start s = start + cntNonGap s := by
  have hgap : ∀ (i : Nat) (c : Char), s[i]? = some c →
      ((aln_to_genome start s)[i]? = some none ↔ c = '-') := by
    intro i c hic
    rw [aln_to_genome_getElem, hic]
    by_cases hc : c = '-' <;> simp [hc]
  have hnongap : ∀ (i g : Nat), (aln_to_genome start s)[i]? = some (some g) →
      ∃ c, s[i]? = some c ∧ c ≠ '-' ∧ g = start + cntNonGap (s.take i) := by
    intro i g hg
    rw [aln_to_genome_getElem] at hg
    rcases hsi : s[i]? with _ | c
    · rw [hsi] at hg
      simp at hg
    · rw [hsi] at hg
      by_cases hc : c = '-'
      · simp [hc] at hg
      · simp [hc] at hg
        exact ⟨c, rfl, hc, hg.symm⟩
  have h3 : ∀ (i g : Nat), (aln_to_genome start s)[i]? = some (some g) →
      g = start + cntNonGap (s.take i) := by
    intro i g hg
    obtain ⟨c, _, _, hgc⟩ := hnongap i g hg
    exact hgc
  refine ⟨aln_to_genome_length start s, hgap, h3, ?_, ?_, ?_, finalGpos_eq start s⟩
  · intro i j gi gj hij hgi hgj
    obtain ⟨ci, hci, hcine, hgival⟩ := hnongap i gi hgi
    have hgjval := h3 j gj hgj
    have hstep : cntNonGap (s.take (i + 1)) = cntNonGap (s.take i) + 1 :=
      cntNonGap_take_succ hci hcine
    have hmono : cntNonGap (s.take (i + 1)) ≤ cntNonGap (s.take j) :=
      cntNonGap_take_mono s hij
    omega
  · intro i g hg
    rw [h3 i g hg]
    exact Nat.le_add_right _ _
  · intro i g hg hprev
    have hgval := h3 i g hg
    have hallgap : ∀ j : Nat, j < i → s[j]? = some '-' := by
      intro j hj
      have hmj := hprev j hj
      rw [aln_to_genome_getElem] at hmj
      rcases hsj : s[j]? with _ | cj
      · rw [hsj] at hmj
        simp at hmj
      · rw [hsj] at hmj
        by_cases hcj : cj = '-'
        · rw [hcj]
        · simp [hcj] at hmj
    have hcnt : cntNonGap (s.take i) = 0 := by
      rw [cntNonGap, List.length_eq_zero, List.filter_eq_nil_iff]
      intro a ha
      obtain ⟨jj, hjj⟩ := List.mem_iff_getElem?.1 ha
      have hjjlt : jj < i := by
        have hlen := List.getElem?_eq_some_iff.1 hjj
        obtain ⟨hlt, _⟩ := hlen
        have := List.length_take_le i s
        omega
      rw [List.getElem?_take_of_lt hjjlt] at hjj
      have := hallgap jj hjjlt
      rw [this] at hjj
      simp at hjj
      simp only [decide_eq_true_eq, ne_eq, not_not]
      exact hjj.symm
    omega

/-- Instantiation of the C2 counter semantics at the C1 scenario: column 7
of the map for `"ACGT--ACGT"` at reference start 95 carries genome position
100, which is 95 plus the number of non-gap characters before column 7. -/
theorem claim_C2_witness :
    (aln_to_genome 95 ("ACGT--ACGT".data))[7]? = some (some 100) ∧
    (100 : Nat) = 95 + cntNonGap (("ACGT--ACGT".data).take 7) := by
  refine ⟨by decide, ?_⟩
  exact (claim_C2 95 ("ACGT--ACGT".data)).2.2.1 7 100 (by decide)

/-- Claim C3: the block filter keeps a block exactly when the reference
span `[start, start+size)` of its first (anchor) row half-open-overlaps an
indexed interval, and the streamed output is the input filtered in order by
that test. -/
theorem claim_C3 (tree : List BxInterval) (blocks : List MafBlock) (m : MafBlock)
    (comp : Component) (rest : List Component) (hcomp : m.components = comp :: rest) :
    (keepBlock tree m = true ↔
      ∃ iv ∈ tree, (comp.start : Int) < iv.hi ∧
        iv.lo < (comp.start : Int) + (comp.size : Int)) ∧
    process_chr tree blocks = blocks.filter (keepBlock tree) := by
  refine ⟨?_, process_chr_eq_filter tree blocks⟩
  have hkb : keepBlock tree m =
      !(treeFind tree (comp.start : Int)
        ((comp.start : Int) + (comp.size : Int))).isEmpty := by
    unfold keepBlock
    rw [hcomp]
  rw [hkb]
  constructor
  · intro h
    have hne : treeFind tree (comp.start : Int)
        ((comp.start : Int) + (comp.size : Int)) ≠ [] := by
      simpa using h
    obtain ⟨iv, hiv⟩ := List.exists_mem_of_ne_nil _ hne
    have hmem := List.mem_of_mem_filter hiv
    have hcond := List.of_mem_filter hiv
    simp only [decide_eq_true_eq] at hcond
    exact ⟨iv, hmem, hcond⟩
  · rintro ⟨iv, hiv, h1, h2⟩
    have hmem : iv ∈ treeFind tree (comp.start : Int)
        ((comp.start : Int) + (comp.size : Int)) :=
      List.mem_filter.2 ⟨hiv, by simp [h1, h2]⟩
    simpa using List.ne_nil_of_mem hmem

/-- Instantiation of C3: a tree holding `[50,150)` keeps a block whose
anchor span is `[100,120)`, and the filter equation holds on a concrete
stream. -/
theorem claim_C3_witness :
    (keepBlock [⟨(50 : Int), 150⟩] ⟨[⟨100, 20, "s1"⟩]⟩ = true ↔
      ∃ iv ∈ [(⟨50, 150⟩ : BxInterval)], ((100 : Nat) : Int) < iv.hi ∧
        iv.lo < ((100 : Nat) : Int) + ((20 : Nat) : Int)) ∧
    process_chr [⟨(50 : Int), 150⟩] [⟨[⟨100, 20, "s1"⟩]⟩, ⟨[⟨500, 20, "s2"⟩]⟩] =
      [⟨[⟨100, 20, "s1"⟩]⟩, ⟨[⟨500, 20, "s2"⟩]⟩].filter
        (keepBlock [⟨(50 : Int), 150⟩]) :=
  claim_C3 [⟨(50 : Int), 150⟩] [⟨[⟨100, 20, "s1"⟩]⟩, ⟨[⟨500, 20, "s2"⟩]⟩]
    ⟨[⟨100, 20, "s1"⟩]⟩ ⟨100, 20, "s1"⟩ [] rfl

/-- Claim C4: building the filter index widens every region symmetrically
by the default margin 2000 to `[start-2000, end+2000)`; in particular
`[0,400)` expands to `[-2000,2400)`, a block with anchor span `[500,600)`
is kept against the expanded index, and the raw region `[0,400)` does not
overlap that span. -/
theorem claim_C4 :
    (∀ (t : List BxInterval) (s e : Int),
      addBedInterval t s e = t ++ [⟨s - 2000, e + 2000⟩]) ∧
    addBedInterval [] 0 400 = [⟨-2000, 2400⟩] ∧
    keepBlock (addBedInterval [] 0 400) ⟨[⟨500, 100, "row"⟩]⟩ = true ∧
    treeFind [⟨0, 400⟩] 500 600 = [] := by
  exact ⟨fun t s e => rfl, by decide, by decide, by decide⟩

/-- Claim C7: a block with no row carrying the anchor prefix `hg38.` is
skipped silently: it leaves the state unchanged and processing continues
with the remaining blocks. -/
theorem claim_C7 (chrom : String) (regions : List Region) (st : AggState)
    (aln : Alignment) (rest : List Alignment)
    (hno : ∀ r ∈ aln, idStartsWith r.id "hg38." = false) :
    processBlock chrom regions st aln = st ∧
    processChrom chrom regions st (aln :: rest) = processChrom chrom regions st rest := by
  have hfind : findHuman aln = none := by
    rw [findHuman, List.find?_eq_none]
    intro r hr
    rw [hno r hr]
    exact Bool.false_ne_true
  have h1 := processBlock_noAnchor chrom regions st aln hfind
  refine ⟨h1, ?_⟩
  simp only [processChrom, List.foldl_cons, h1]

/-- Instantiation of C7 on a block holding only a chimpanzee row. -/
theorem claim_C7_witness :
    processBlock "1" [⟨100, 110, "x"⟩] ⟨[], []⟩
        [⟨"panTro4.chr1", 0, 4, "ACGT".data⟩] = ⟨[], []⟩ ∧
    processChrom "1" [⟨100, 110, "x"⟩] ⟨[], []⟩
        ([⟨"panTro4.chr1", 0, 4, "ACGT".data⟩] :: []) =
      processChrom "1" [⟨100, 110, "x"⟩] ⟨[], []⟩ [] :=
  claim_C7 "1" [⟨100, 110, "x"⟩] ⟨[], []⟩
    [⟨"panTro4.chr1", 0, 4, "ACGT".data⟩] [] (by decide)

/-- Claim C8: the block filter emits kept blocks verbatim and in input
order: the output is the order-preserving sublist of the input selected by
the keep test, so every emitted block is literally a block of the input
stream. -/
theorem claim_C8 (tree : List BxInterval) (blocks : List MafBlock) :
    process_chr tree blocks = blocks.filter (keepBlock tree) ∧
    List.Sublist (process_chr tree blocks) blocks ∧
    ∀ m ∈ process_chr tree blocks, m ∈ blocks := by
  refine ⟨process_chr_eq_filter tree blocks, ?_, ?_⟩
  · rw [process_chr_eq_filter]
    exact List.filter_sublist _
  · intro m hm
    rw [process_chr_eq_filter] at hm
    exact List.mem_of_mem_filter hm

/-- Instantiation of C8 on a concrete stream: only the first block is kept,
verbatim and in order. -/
theorem claim_C8_witness :
    process_chr [⟨(50 : Int), 150⟩] [⟨[⟨100, 20, "w1"⟩]⟩, ⟨[⟨500, 20, "w2"⟩]⟩] =
      [⟨[⟨100, 20, "w1"⟩]⟩, ⟨[⟨500, 20, "w2"⟩]⟩].filter (keepBlock [⟨(50 : Int), 150⟩]) ∧
    List.Sublist (process_chr [⟨(50 : Int), 150⟩]
        [⟨[⟨100, 20, "w1"⟩]⟩, ⟨[⟨500, 20, "w2"⟩]⟩])
      [⟨[⟨100, 20, "w1"⟩]⟩, ⟨[⟨500, 20, "w2"⟩]⟩] ∧
    ∀ m ∈ process_chr [⟨(50 : Int), 150⟩] [⟨[⟨100, 20, "w1"⟩]⟩, ⟨[⟨500, 20, "w2"⟩]⟩],
      m ∈ [⟨[⟨100, 20, "w1"⟩]⟩, ⟨[⟨500, 20, "w2"⟩]⟩] :=
  claim_C8 [⟨(50 : Int), 150⟩] [⟨[⟨100, 20, "w1"⟩]⟩, ⟨[⟨500, 20, "w2"⟩]⟩]

/-- Claim C5: for well-formed input blocks (exactly one anchor row, one row
per species, non-gap count of every row equal to its declared size) whose
anchor spans are pairwise disjoint, every output row satisfies
`0 ≤ aligned_bases ≤ region_length`.  The chromosome names are distinct (they
are dict keys) and each region tree holds a set of intervals. -/
theorem claim_C5 (inputs : List ChromInput)
    (hchr : (inputs.map (fun ci => ci.chrom)).Nodup)
    (hreg : ∀ ci ∈ inputs, ci.regions.Nodup)
    (hwf : ∀ ci ∈ inputs, ∀ aln ∈ ci.blocks, wellFormedBlock aln)
    (hdisj : ∀ ci ∈ inputs,
      ci.blocks.Pairwise (fun a1 a2 => Disjoint (blockSpanF a1) (blockSpanF a2))) :
    ∀ rec ∈ buildRecords (runScan inputs),
      0 ≤ rec.aligned_bases ∧ rec.aligned_bases ≤ rec.ltr_len := by
  intro rec hrec
  obtain ⟨p, hp, hpeq⟩ := List.mem_map.1 hrec
  obtain ⟨⟨c, b, e, n, s⟩, ab⟩ := p
  subst hpeq
  refine ⟨Nat.zero_le _, ?_⟩
  obtain ⟨hka, hkl, hcanon, hcov⟩ := stInv_runScan inputs
  have hlook : lookupA (runScan inputs).agg (c, b, e, n, s) = some ab :=
    lookupA_eq_of_keysNodup_mem hka hp
  have hab : ab = valA (runScan inputs).agg (c, b, e, n, s) := by
    rw [valA, hlook]
    rfl
  have hbound := runScan_agg_le inputs c b e n s hchr hreg hwf hdisj
  have hsm : (lookupA (runScan inputs).agg (c, b, e, n, s)).isSome := by
    rw [hlook]
    rfl
  obtain ⟨v, hv⟩ := Option.isSome_iff_exists.1 (hcov c b e n s hsm)
  have hveq : v = e - b := hcanon c b e n v hv
  show ab ≤ (lookupA (runScan inputs).lens (c, b, e, n)).getD 0
  rw [hv]
  simp only [Option.getD_some]
  omega

unseal Rat.mul Rat.add Rat.inv in
/-- Instantiation of C5 at the single output row of the C1 scenario. -/
theorem claim_C5_witness :
    0 ≤ (⟨"1", 100, 110, "chr1:100-110", "panTro4", 3, 10,
      (3 : ℚ) / 10⟩ : CoverageRecord).aligned_bases ∧
    (⟨"1", 100, 110, "chr1:100-110", "panTro4", 3, 10,
      (3 : ℚ) / 10⟩ : CoverageRecord).aligned_bases ≤
      (⟨"1", 100, 110, "chr1:100-110", "panTro4", 3, 10,
        (3 : ℚ) / 10⟩ : CoverageRecord).ltr_len :=
  claim_C5 [⟨"1", [⟨100, 110, "chr1:100-110"⟩],
      [[⟨"hg38.chr1", 95, 8, "ACGT--ACGT".data⟩,
        ⟨"panTro4.chr1", 12, 10, "ACGTAAACGT".data⟩]]⟩]
    (by decide) (by decide) (by decide)
    (by
      intro ci hci
      rcases List.mem_singleton.1 hci with rfl
      exact List.pairwise_singleton _ _)
    ⟨"1", 100, 110, "chr1:100-110", "panTro4", 3, 10, (3 : ℚ) / 10⟩ (by decide)

/-- Claim C6: a (region, species) pair to whose accumulator key no block of
the scan ever contributed yields no output row at all. -/
theorem claim_C6 (inputs : List ChromInput) (c : String) (b e : Nat) (n s : String)
    (huntouched : ∀ ci ∈ inputs, ∀ aln ∈ ci.blocks,
      touchesKey ci.chrom ci.regions aln c b e n s = false) :
    ∀ rec ∈ buildRecords (runScan inputs),
      ¬(rec.chrom = c ∧ rec.rstart = b ∧ rec.rend = e ∧ rec.ltr = n ∧
        rec.species = s) := by
  intro rec hrec hmatch
  obtain ⟨p, hp, hpeq⟩ := List.mem_map.1 hrec
  obtain ⟨⟨c2, b2, e2, n2, s2⟩, ab⟩ := p
  obtain ⟨hc, hb, he2, hn, hs⟩ : c2 = c ∧ b2 = b ∧ e2 = e ∧ n2 = n ∧ s2 = s := by
    rw [← hpeq] at hmatch
    exact hmatch
  subst hc
  subst hb
  subst he2
  subst hn
  subst hs
  have hsm : (lookupA (runScan inputs).agg (c2, b2, e2, n2, s2)).isSome :=
    lookupA_isSome_of_mem hp
  obtain ⟨ci, hci, aln, haln, ht⟩ := runScan_isSome_touch inputs c2 b2 e2 n2 s2 hsm
  rw [huntouched ci hci aln haln] at ht
  exact Bool.false_ne_true ht

unseal Rat.mul Rat.add Rat.inv in
/-- Instantiation of C6: the C1 scenario block never touches the gorilla,
so the one produced row is not a (chr1:100-110, gorGor3) row. -/
theorem claim_C6_witness :
    ¬((⟨"1", 100, 110, "chr1:100-110", "panTro4", 3, 10,
        (3 : ℚ) / 10⟩ : CoverageRecord).chrom = "1" ∧
      (⟨"1", 100, 110, "chr1:100-110", "panTro4", 3, 10,
        (3 : ℚ) / 10⟩ : CoverageRecord).rstart = 100 ∧
      (⟨"1", 100, 110, "chr1:100-110", "panTro4", 3, 10,
        (3 : ℚ) / 10⟩ : CoverageRecord).rend = 110 ∧
      (⟨"1", 100, 110, "chr1:100-110", "panTro4", 3, 10,
        (3 : ℚ) / 10⟩ : CoverageRecord).ltr = "chr1:100-110" ∧
      (⟨"1", 100, 110, "chr1:100-110", "panTro4", 3, 10,
        (3 : ℚ) / 10⟩ : CoverageRecord).species = "gorGor3") :=
  claim_C6 [⟨"1", [⟨100, 110, "chr1:100-110"⟩],
      [[⟨"hg38.chr1", 95, 8, "ACGT--ACGT".data⟩,
        ⟨"panTro4.chr1", 12, 10, "ACGTAAACGT".data⟩]]⟩]
    "1" 100 110 "chr1:100-110" "gorGor3" (by decide)
    ⟨"1", 100, 110, "chr1:100-110", "panTro4", 3, 10, (3 : ℚ) / 10⟩ (by decide)

/-- Claim C9: a kept block that overlaps a region with at least one mapped
column and carries a non-anchor species row that is all gaps at the
selected columns still creates an accumulator entry of value 0, and the
output holds an explicit row with aligned_bases = 0 and coverage = 0 —
unlike a species never seen in the block, which gets no row. -/
theorem claim_C9 (chrom : String) (regions : List Region) (aln : Alignment)
    (h0 : SeqRecord) (ov : Region) (s : String)
    (hh : findHuman aln = some h0)
    (hnd : regions.Nodup)
    (hov : ov ∈ overlapQuery regions h0.start (h0.start + h0.size))
    (hidx : ltr_indices (aln_to_genome h0.start h0.seq) ov.lo ov.hi ≠ [])
    (hs : s ≠ "hg38")
    (hrow : aln.filter (fun r => decide (speciesOf r.id = s)) ≠ [])
    (hgap : ∀ r ∈ aln, speciesOf r.id = s →
      ∀ i ∈ ltr_indices (aln_to_genome h0.start h0.seq) ov.lo ov.hi,
        r.seq.getD i '-' = '-') :
    lookupA (processBlock chrom regions ⟨[], []⟩ aln).agg
        (chrom, ov.lo, ov.hi, ov.data, s) = some 0 ∧
    (∃ rec ∈ buildRecords (processBlock chrom regions ⟨[], []⟩ aln),
      rec.chrom = chrom ∧ rec.rstart = ov.lo ∧ rec.rend = ov.hi ∧
      rec.ltr = ov.data ∧ rec.species = s ∧ rec.aligned_bases = 0 ∧
      rec.ltr_len = ov.hi - ov.lo ∧ rec.coverage = 0) ∧
    (∀ s2 : String, (∀ r ∈ aln, speciesOf r.id ≠ s2) →
      ∀ rec ∈ buildRecords (processBlock chrom regions ⟨[], []⟩ aln),
        rec.species ≠ s2) := by
  have hov2 : (⟨ov.lo, ov.hi, ov.data⟩ : Region) ∈
      overlapQuery regions h0.start (h0.start + h0.size) := hov
  have hcontrib : blockContribFor aln
      (ltr_indices (aln_to_genome h0.start h0.seq) ov.lo ov.hi) s = 0 := by
    rw [blockContribFor]
    apply List.sum_eq_zero
    intro x hx
    obtain ⟨r, hr, hxeq⟩ := List.mem_map.1 hx
    have hrmem := List.mem_of_mem_filter hr
    have hrs : speciesOf r.id = s := by
      have := List.of_mem_filter hr
      simpa using this
    rw [← hxeq, alignedCount, List.length_eq_zero, List.filter_eq_nil_iff]
    intro ch hch
    obtain ⟨i, hi, hcheq⟩ := List.mem_map.1 hch
    have hchgap := hgap r hrmem hrs i hi
    rw [← hcheq, hchgap]
    simp
  have hlookup : lookupA (processBlock chrom regions ⟨[], []⟩ aln).agg
      (chrom, ov.lo, ov.hi, ov.data, s) = some 0 := by
    rw [processBlock_agg_self chrom regions ⟨[], []⟩ aln h0 ov.lo ov.hi ov.data s hh hnd hs,
      if_pos ⟨hov2, hidx, hrow⟩, hcontrib]
    rfl
  have hmem0 : ((chrom, ov.lo, ov.hi, ov.data, s), 0) ∈
      (processBlock chrom regions ⟨[], []⟩ aln).agg := mem_of_lookupA_some hlookup
  have hlens : lookupA (processBlock chrom regions ⟨[], []⟩ aln).lens
      (chrom, ov.lo, ov.hi, ov.data) = some (ov.hi - ov.lo) := by
    rw [processBlock_lens chrom regions ⟨[], []⟩ aln h0 chrom ov.lo ov.hi ov.data hh,
      if_pos ⟨rfl, hov2⟩]
  refine ⟨hlookup, ?_, ?_⟩
  · refine ⟨_, List.mem_map.2 ⟨((chrom, ov.lo, ov.hi, ov.data, s), 0), hmem0, rfl⟩,
      rfl, rfl, rfl, rfl, rfl, rfl, ?_, ?_⟩
    · show (lookupA (processBlock chrom regions ⟨[], []⟩ aln).lens
          (chrom, ov.lo, ov.hi, ov.data)).getD 0 = ov.hi - ov.lo
      rw [hlens]
      rfl
    · show round3 (if 0 < (lookupA (processBlock chrom regions ⟨[], []⟩ aln).lens
            (chrom, ov.lo, ov.hi, ov.data)).getD 0
          then (((0 : Nat) : ℚ)) / (((lookupA (processBlock chrom regions ⟨[], []⟩
            aln).lens (chrom, ov.lo, ov.hi, ov.data)).getD 0 : Nat) : ℚ)
          else 0) = 0
      rw [hlens]
      have hzero : (if 0 < (some (ov.hi - ov.lo)).getD 0
          then (((0 : Nat) : ℚ)) / (((some (ov.hi - ov.lo)).getD 0 : Nat) : ℚ)
          else 0) = (0 : ℚ) := by
        split <;> simp
      rw [hzero, round3_zero]
  · intro s2 hnos2 rec hrec
    obtain ⟨p, hp, hpeq⟩ := List.mem_map.1 hrec
    obtain ⟨⟨c2, b2, e2, n2, s3⟩, ab⟩ := p
    subst hpeq
    intro hcontra
    have hs3 : s3 = s2 := hcontra
    have hsm : (lookupA (processBlock chrom regions ⟨[], []⟩ aln).agg
        (c2, b2, e2, n2, s3)).isSome := lookupA_isSome_of_mem hp
    rcases processBlock_isSome_touch chrom regions ⟨[], []⟩ aln c2 b2 e2 n2 s3 hsm with
      h1 | h1
    · simp [lookupA] at h1
    · obtain ⟨_, _, _, _, _, r, hr, hr2⟩ := touchesKey_elim h1
      exact hnos2 r hr (hr2.trans hs3)

/-- Instantiation of C9: the gorilla row `"ACGTAAA---"` is all gaps at the
selected columns 7, 8, 9 and yields an explicit zero-coverage row. -/
theorem claim_C9_witness :
    lookupA (processBlock "1" [⟨100, 110, "L"⟩] ⟨[], []⟩
        [⟨"hg38.chr1", 95, 8, "ACGT--ACGT".data⟩,
         ⟨"gorGor3.chr1", 5, 7, "ACGTAAA---".data⟩]).agg
        ("1", 100, 110, "L", "gorGor3") = some 0 ∧
    (∃ rec ∈ buildRecords (processBlock "1" [⟨100, 110, "L"⟩] ⟨[], []⟩
        [⟨"hg38.chr1", 95, 8, "ACGT--ACGT".data⟩,
         ⟨"gorGor3.chr1", 5, 7, "ACGTAAA---".data⟩]),
      rec.chrom = "1" ∧ rec.rstart = 100 ∧ rec.rend = 110 ∧
      rec.ltr = "L" ∧ rec.species = "gorGor3" ∧ rec.aligned_bases = 0 ∧
      rec.ltr_len = 110 - 100 ∧ rec.coverage = 0) ∧
    (∀ s2 : String, (∀ r ∈ [(⟨"hg38.chr1", 95, 8, "ACGT--ACGT".data⟩ : SeqRecord),
          ⟨"gorGor3.chr1", 5, 7, "ACGTAAA---".data⟩], speciesOf r.id ≠ s2) →
      ∀ rec ∈ buildRecords (processBlock "1" [⟨100, 110, "L"⟩] ⟨[], []⟩
          [⟨"hg38.chr1", 95, 8, "ACGT--ACGT".data⟩,
           ⟨"gorGor3.chr1", 5, 7, "ACGTAAA---".data⟩]),
        rec.species ≠ s2) :=
  claim_C9 "1" [⟨100, 110, "L"⟩]
    [⟨"hg38.chr1", 95, 8, "ACGT--ACGT".data⟩,
     ⟨"gorGor3.chr1", 5, 7, "ACGTAAA---".data⟩]
    ⟨"hg38.chr1", 95, 8, "ACGT--ACGT".data⟩ ⟨100, 110, "L"⟩ "gorGor3"
    (by decide) (by decide) (by decide) (by decide) (by decide) (by decide) (by decide)

/-- Claim C10: every output row's region length equals `end - start` of its
region and is positive (given that every loaded region satisfies
`start < end`), so the zero-length fallback is unreachable and the coverage
is always `round3(aligned_bases / (end - start))`. -/
theorem claim_C10 (inputs : List ChromInput)
    (hlt : ∀ ci ∈ inputs, ∀ r ∈ ci.regions, r.lo < r.hi) :
    ∀ rec ∈ buildRecords (runScan inputs),
      rec.ltr_len = rec.rend - rec.rstart ∧ 0 < rec.ltr_len ∧
      rec.coverage =
        round3 ((rec.aligned_bases : ℚ) / (((rec.rend - rec.rstart : Nat)) : ℚ)) := by
  intro rec hrec
  obtain ⟨p, hp, hpeq⟩ := List.mem_map.1 hrec
  obtain ⟨⟨c, b, e, n, s⟩, ab⟩ := p
  subst hpeq
  obtain ⟨hka, hkl, hcanon, hcov⟩ := stInv_runScan inputs
  have hsm : (lookupA (runScan inputs).agg (c, b, e, n, s)).isSome :=
    lookupA_isSome_of_mem hp
  obtain ⟨v, hv⟩ := Option.isSome_iff_exists.1 (hcov c b e n s hsm)
  have hveq : v = e - b := hcanon c b e n v hv
  obtain ⟨ci, hci, aln, haln, ht⟩ := runScan_isSome_touch inputs c b e n s hsm
  obtain ⟨h0, _, _, _, ⟨ov, hovmem, hlo, hhi, _, _⟩, _⟩ := touchesKey_elim ht
  have hovreg : ov ∈ ci.regions := List.mem_of_mem_filter hovmem
  have hlt2 : ov.lo < ov.hi := hlt ci hci ov hovreg
  have hbe : b < e := by omega
  refine ⟨?_, ?_, ?_⟩
  · show (lookupA (runScan inputs).lens (c, b, e, n)).getD 0 = e - b
    rw [hv]
    simp [hveq]
  · show 0 < (lookupA (runScan inputs).lens (c, b, e, n)).getD 0
    rw [hv]
    simp only [Option.getD_some]
    omega
  · show round3 (if 0 < (lookupA (runScan inputs).lens (c, b, e, n)).getD 0
        then (ab : ℚ) / (((lookupA (runScan inputs).lens (c, b, e, n)).getD 0 : Nat) : ℚ)
        else 0) =
      round3 ((ab : ℚ) / (((e - b : Nat)) : ℚ))
    rw [hv]
    simp only [Option.getD_some, hveq]
    rw [if_pos (by omega)]

unseal Rat.mul Rat.add Rat.inv in
/-- Instantiation of C10 at the single output row of the C1 scenario. -/
theorem claim_C10_witness :
    (⟨"1", 100, 110, "chr1:100-110", "panTro4", 3, 10,
      (3 : ℚ) / 10⟩ : CoverageRecord).ltr_len =
      (⟨"1", 100, 110, "chr1:100-110", "panTro4", 3, 10,
        (3 : ℚ) / 10⟩ : CoverageRecord).rend -
      (⟨"1", 100, 110, "chr1:100-110", "panTro4", 3, 10,
        (3 : ℚ) / 10⟩ : CoverageRecord).rstart ∧
    0 < (⟨"1", 100, 110, "chr1:100-110", "panTro4", 3, 10,
      (3 : ℚ) / 10⟩ : CoverageRecord).ltr_len ∧
    (⟨"1", 100, 110, "chr1:100-110", "panTro4", 3, 10,
      (3 : ℚ) / 10⟩ : CoverageRecord).coverage =
      round3 (((⟨"1", 100, 110, "chr1:100-110", "panTro4", 3, 10,
          (3 : ℚ) / 10⟩ : CoverageRecord).aligned_bases : ℚ) /
        ((((⟨"1", 100, 110, "chr1:100-110", "panTro4", 3, 10,
            (3 : ℚ) / 10⟩ : CoverageRecord).rend -
          (⟨"1", 100, 110, "chr1:100-110", "panTro4", 3, 10,
            (3 : ℚ) / 10⟩ : CoverageRecord).rstart : Nat)) : ℚ)) :=
  claim_C10 [⟨"1", [⟨100, 110, "chr1:100-110"⟩],
      [[⟨"hg38.chr1", 95, 8, "ACGT--ACGT".data⟩,
        ⟨"panTro4.chr1", 12, 10, "ACGTAAACGT".data⟩]]⟩] (by decide)
    ⟨"1", 100, 110, "chr1:100-110", "panTro4", 3, 10, (3 : ℚ) / 10⟩ (by decide)

end Erv
